import Mathlib

/-! Report rendering of the gas scanner (`output/formatter.go`)

A shallow embedding of `CreateReport` and of the five encoders it dispatches
to, together with the parts of the Go standard library the CSV path runs on
(`bufio.Writer`, `encoding/csv`).

Conventions of the embedding:

* a Go `string` is its sequence of bytes (`GoString`);
* a Go `error` is a value of `GoError`, and `nil` is `none`;
* an `io.Writer` is a transition function on an explicit sink state;
* a Go `map[string][]*Issue` is an association list whose keys are kept in
  strictly ascending byte order, so that two maps with the same bindings are
  the same value: a Go map remembers no insertion order, and a `range` of
  `text/template` over a map visits the keys in sorted order;
* what `formatter.go` uses and does not define (the method `Score.String`,
  the template constants, `json.MarshalIndent` and the two template
  packages) is a parameter, the environment `Env`;
* a loop whose Go text has no structural bound takes a bound on its rounds,
  and its caller passes one that is large enough.
-/

namespace Gas

/-! ## Strings -/

/-- A Go string: an immutable sequence of bytes. -/
abbrev GoString := List UInt8

/-- The Go string literal with the given ASCII text. -/
def goStr (s : String) : GoString := s.toList.map (fun c => UInt8.ofNat c.toNat)

/-- Go's `<` on strings: lexicographic comparison of the bytes. -/
def strLess : GoString → GoString → Bool
  | [], [] => false
  | [], _ :: _ => true
  | _ :: _, [] => false
  | a :: s, b :: t =>
    if a.toNat < b.toNat then true
    else if b.toNat < a.toNat then false
    else strLess s t

/-! ## Data model (`gas.Issue`, `gas.Analyzer`) -/

/-- The type `gas.Score` is declared as `type Score int`. -/
abbrev Score := Int

/-- The struct `gas.Issue`, one finding. -/
structure Issue where
  Severity : Score
  Confidence : Score
  What : GoString
  File : GoString
  Code : GoString
  Line : Int
deriving DecidableEq

/-- The part of `gas.Analyzer` the encoders of this file read themselves. -/
structure Analyzer where
  Issues : List Issue
deriving DecidableEq

/-! ## Go maps keyed by string -/

/-- A `map[string][]*Issue`: bindings with strictly ascending keys. -/
abbrev IssueMap := List (GoString × List Issue)

/-- The expression `m[k]`: the stored slice, or the nil slice when `k` is absent. -/
def IssueMap.get : IssueMap → GoString → List Issue
  | [], _ => []
  | (k', g) :: rest, k => if k = k' then g else IssueMap.get rest k

/-- The statement `m[k] = v`. -/
def IssueMap.set : IssueMap → GoString → List Issue → IssueMap
  | [], k, v => [(k, v)]
  | (k', g) :: rest, k, v =>
    if k = k' then (k', v) :: rest
    else if strLess k k' then (k, v) :: (k', g) :: rest
    else (k', g) :: IssueMap.set rest k v

/-- The keys of a map, in the order in which a `range` of `text/template`
visits them: sorted key order, which is the order of the representation. -/
def IssueMap.rangeKeys (m : IssueMap) : List GoString := m.map Prod.fst

/-- The groups of a map, in the order of `rangeKeys`. -/
def IssueMap.groups (m : IssueMap) : List (List Issue) := m.map Prod.snd

/-- Keys strictly ascending: the well-formedness of the representation. -/
def IssueMap.Ascending (m : IssueMap) : Prop :=
  List.Pairwise (fun a b => strLess a b = true) (m.map Prod.fst)

/-! ## `aggregateIssues` -/

/-- The loop of `aggregateIssues`; the state is `(result, last)`. -/
def aggregateLoop : List Issue → IssueMap × GoString → IssueMap × GoString
  | [], st => st
  | is :: rest, (result, last) =>
    let last := if is.File ≠ last then is.File else last
    aggregateLoop rest (IssueMap.set result last (IssueMap.get result last ++ [is]), last)

/-- The function `aggregateIssues`: `result` starts as the empty map and
`last` as the empty string. -/
def aggregateIssues (issues : List Issue) : IssueMap :=
  (aggregateLoop issues ([], [])).1

/-- Grouping as the specification words it: every finding is appended to the
group of its own file path directly, with no cursor. -/
def aggregateDirect : List Issue → IssueMap → IssueMap
  | [], result => result
  | is :: rest, result =>
    aggregateDirect rest (IssueMap.set result is.File (IssueMap.get result is.File ++ [is]))

/-- The file paths of a finding sequence in order of first occurrence. -/
def firstSeen : List Issue → List GoString
  | [] => []
  | is :: rest => is.File :: (firstSeen rest).filter (fun f => decide (f ≠ is.File))

/-! ## Errors and sinks -/

/-- A Go `error` value; the nil error is `none : Option GoError`. -/
structure GoError where
  text : String
deriving DecidableEq

/-- The error `io.ErrShortWrite`. -/
def ErrShortWrite : GoError := ⟨"short write"⟩

/-- An `io.Writer` over an explicit sink state: `Write` maps the state and
the bytes offered to the new state, the count written and the error.
`WriteString` is present when the writer is an `io.StringWriter` as well, as
`os.File` and `bytes.Buffer` are. -/
structure Sink (σ : Type) where
  Write : σ → List UInt8 → σ × Nat × Option GoError
  WriteString : Option (σ → List UInt8 → σ × Nat × Option GoError)

/-- How a call ends: it returns an error value (nil or not), or it panics. -/
inductive Outcome (σ : Type) where
  | returned (sink : σ) (err : Option GoError)
  | panicked (sink : σ) (value : GoError)
deriving DecidableEq

/-- An in-memory sink that accepts every write, as `bytes.Buffer` does; like
`bytes.Buffer` it is an `io.StringWriter` too. -/
def memSink : Sink (List UInt8) :=
  { Write := fun s p => (s ++ p, p.length, none)
    WriteString := some (fun s p => (s ++ p, p.length, none)) }

/-- A plain `io.Writer` on which every write fails with the given error,
writing nothing. -/
def brokenSink (e : GoError) : Sink (List UInt8) :=
  { Write := fun s _ => (s, 0, some e)
    WriteString := none }

/-! ## `bufio.Writer` -/

/-- The constant `defaultBufSize` of package `bufio`. -/
def defaultBufSize : Nat := 4096

/-- The state of a `bufio.Writer`: the sticky error `err`, the buffered bytes
`buf[0:n]` and the state of the underlying writer `wr`. -/
structure BufWriter (σ : Type) where
  err : Option GoError
  buf : List UInt8
  wr : σ
deriving DecidableEq

/-- The method `Available`: the bytes unused in the buffer. -/
def BufWriter.Available {σ : Type} (b : BufWriter σ) : Nat := defaultBufSize - b.buf.length

/-- The method `Flush` of `bufio.Writer`. -/
def BufWriter.Flush {σ : Type} (w : Sink σ) (b : BufWriter σ) : BufWriter σ × Option GoError :=
  match b.err with
  | some e => (b, some e)
  | none =>
    if b.buf.length = 0 then (b, none)
    else
      match w.Write b.wr b.buf with
      | (s, n, err) =>
        let err := if n < b.buf.length ∧ err = none then some ErrShortWrite else err
        match err with
        | some e => ({ err := some e, buf := b.buf.drop n, wr := s }, some e)
        | none => ({ err := none, buf := [], wr := s }, none)

/-- The method `WriteByte` of `bufio.Writer`. -/
def BufWriter.WriteByte {σ : Type} (w : Sink σ) (b : BufWriter σ) (c : UInt8) :
    BufWriter σ × Option GoError :=
  match b.err with
  | some e => (b, some e)
  | none =>
    if b.Available ≤ 0 then
      match BufWriter.Flush w b with
      | (b1, some _) => (b1, b1.err)
      | (b1, none) => ({ b1 with buf := b1.buf ++ [c] }, none)
    else ({ b with buf := b.buf ++ [c] }, none)

/-- The loop of `WriteString`: while the string does not fit and no error is
pending, either forward the string to the `WriteString` of the underlying
writer, when the buffer is empty and the writer has one, or fill the buffer
and flush it. The first argument bounds the number of rounds. -/
def BufWriter.fillLoop {σ : Type} (w : Sink σ) :
    Nat → BufWriter σ → List UInt8 → BufWriter σ × List UInt8
  | 0, b, s => (b, s)
  | fuel + 1, b, s =>
    if s.length > b.Available ∧ b.err = none then
      match (if b.buf.length = 0 then w.WriteString else none) with
      | some sw =>
        match sw b.wr s with
        | (wr1, n, err) =>
          BufWriter.fillLoop w fuel { b with err := err, wr := wr1 } (s.drop n)
      | none =>
        let n := b.Available
        let b1 : BufWriter σ := { b with buf := b.buf ++ s.take n }
        BufWriter.fillLoop w fuel (BufWriter.Flush w b1).1 (s.drop n)
    else (b, s)

/-- The method `WriteString` of `bufio.Writer`. One round per byte and one
more are enough whenever every round that forwards the string to the
underlying writer ends in an error or takes at least one byte. -/
def BufWriter.WriteString {σ : Type} (w : Sink σ) (b : BufWriter σ) (s : List UInt8) :
    BufWriter σ × Option GoError :=
  match BufWriter.fillLoop w (s.length + 1) b s with
  | (b1, s1) =>
    match b1.err with
    | some e => (b1, some e)
    | none => ({ b1 with buf := b1.buf ++ s1 }, none)

/-! ## `csv.Writer`

The writer is the one `csv.NewWriter` returns: it writes through a
`bufio.Writer` of the default size, the field delimiter is the comma and
`UseCRLF` is false; `reportCSV` changes neither. -/

/-- The state of a `csv.Writer`: its `bufio.Writer`. -/
structure CsvWriter (σ : Type) where
  w : BufWriter σ
deriving DecidableEq

/-- The function `csv.NewWriter`. -/
def NewWriter {σ : Type} (s : σ) : CsvWriter σ := ⟨{ err := none, buf := [], wr := s }⟩

/-- Whether `unicode.IsSpace` holds of the first rune of the string: the
white space of ASCII, U+0085, U+00A0, U+1680, U+2000 to U+200A, U+2028,
U+2029, U+202F, U+205F and U+3000, in their UTF-8 encodings. -/
def firstRuneIsSpace : GoString → Bool
  | [] => false
  | c :: rest =>
    if c.toNat < 128 then
      decide (c = 9 ∨ c = 10 ∨ c = 11 ∨ c = 12 ∨ c = 13 ∨ c = 32)
    else
      match rest with
      | [] => false
      | d :: rest2 =>
        if c = 194 then decide (d = 133 ∨ d = 160)
        else
          match rest2 with
          | [] => false
          | e :: _ =>
            decide ((c = 225 ∧ d = 154 ∧ e = 128) ∨
              (c = 226 ∧ d = 128 ∧ ((128 ≤ e.toNat ∧ e.toNat ≤ 138) ∨ e = 168 ∨ e = 169 ∨ e = 175)) ∨
              (c = 226 ∧ d = 129 ∧ e = 159) ∨
              (c = 227 ∧ d = 128 ∧ e = 128))

/-- The method `fieldNeedsQuotes` of `csv.Writer`. -/
def fieldNeedsQuotes (field : GoString) : Bool :=
  if field = [] then false
  else if field = goStr "\\." then true
  else if field.any (fun c => decide (c = 10 ∨ c = 13 ∨ c = 34 ∨ c = 44)) then true
  else firstRuneIsSpace field

/-- Whether a byte is one of the quote, the carriage return and the line feed. -/
def isSpecial (c : UInt8) : Bool := decide (c = 34 ∨ c = 13 ∨ c = 10)

/-- The loop of `csv.Writer.Write` over a field that needs quotes: copy the
bytes before the next special byte, then encode the special byte. The first
argument bounds the number of rounds. -/
def writeQuotedLoop {σ : Type} (w : Sink σ) :
    Nat → BufWriter σ → GoString → BufWriter σ × Option GoError
  | 0, b, _ => (b, none)
  | fuel + 1, b, field =>
    if field.length > 0 then
      match BufWriter.WriteString w b (field.takeWhile (fun c => !isSpecial c)) with
      | (b1, some e) => (b1, some e)
      | (b1, none) =>
        match field.dropWhile (fun c => !isSpecial c) with
        | [] => (b1, none)
        | c :: field2 =>
          match (if c = 34 then BufWriter.WriteString w b1 [34, 34]
                 else BufWriter.WriteByte w b1 c) with
          | (b2, some e) => (b2, some e)
          | (b2, none) => writeQuotedLoop w fuel b2 field2
    else (b, none)

/-- One field of `csv.Writer.Write`, after the delimiter. -/
def writeField {σ : Type} (w : Sink σ) (b : BufWriter σ) (field : GoString) :
    BufWriter σ × Option GoError :=
  if !fieldNeedsQuotes field then BufWriter.WriteString w b field
  else
    match BufWriter.WriteByte w b 34 with
    | (b1, some e) => (b1, some e)
    | (b1, none) =>
      match writeQuotedLoop w field.length b1 field with
      | (b2, some e) => (b2, some e)
      | (b2, none) => BufWriter.WriteByte w b2 34

/-- The loop of `csv.Writer.Write` over the fields; `n` is the field index. -/
def writeFields {σ : Type} (w : Sink σ) :
    Nat → BufWriter σ → List GoString → BufWriter σ × Option GoError
  | _, b, [] => (b, none)
  | n, b, field :: rest =>
    match (if n > 0 then BufWriter.WriteByte w b 44 else (b, none)) with
    | (b1, some e) => (b1, some e)
    | (b1, none) =>
      match writeField w b1 field with
      | (b2, some e) => (b2, some e)
      | (b2, none) => writeFields w (n + 1) b2 rest

/-- The method `Write` of `csv.Writer`: the fields, then the line feed. -/
def CsvWriter.Write {σ : Type} (w : Sink σ) (out : CsvWriter σ) (record : List GoString) :
    CsvWriter σ × Option GoError :=
  match writeFields w 0 out.w record with
  | (b1, some e) => (⟨b1⟩, some e)
  | (b1, none) =>
    match BufWriter.WriteByte w b1 10 with
    | (b2, err) => (⟨b2⟩, err)

/-- The method `Flush` of `csv.Writer`; it returns nothing. -/
def CsvWriter.Flush {σ : Type} (w : Sink σ) (out : CsvWriter σ) : CsvWriter σ :=
  ⟨(BufWriter.Flush w out.w).1⟩

/-- The method `Error` of `csv.Writer`: the error of an earlier write or flush. -/
def CsvWriter.Error {σ : Type} (out : CsvWriter σ) : Option GoError := out.w.err

/-! ## `csv.Reader`

The standard reader the round trip is measured against. It is the one
`csv.NewReader` returns, reading from memory: the delimiter is the comma,
there is no comment character, `LazyQuotes` and `TrimLeadingSpace` are false
and `FieldsPerRecord` starts as 0. The reader works line by line, as in the
current releases of Go; a read from memory fails with `io.EOF` only. Parse
errors are kept without their positions. -/

/-- The errors of `readRecord`; `EOF` is `io.EOF`. The last value is not an
error of the reader: it says that the bound on the rounds of a loop was
reached. -/
inductive ReadError where
  | EOF
  | ErrBareQuote
  | ErrQuote
  | ErrFieldCount
  | RoundsExceeded
deriving DecidableEq

instance {ε α : Type} [DecidableEq ε] [DecidableEq α] : DecidableEq (Except ε α)
  | .error a, .error b => if h : a = b then isTrue (by rw [h]) else isFalse (by simpa using h)
  | .ok a, .ok b => if h : a = b then isTrue (by rw [h]) else isFalse (by simpa using h)
  | .error _, .ok _ => isFalse (by simp)
  | .ok _, .error _ => isFalse (by simp)

/-- What `ReadSlice('\n')` returns: the input through its first line feed,
or all of it when there is none. -/
def takeLine : List UInt8 → List UInt8
  | [] => []
  | c :: s => if c = 10 then [c] else c :: takeLine s

/-- What `ReadSlice('\n')` leaves unread. -/
def dropLine : List UInt8 → List UInt8
  | [] => []
  | c :: s => if c = 10 then s else dropLine s

/-- The function `lengthNL`: 1 when the line ends in a line feed, else 0. -/
def lengthNL (b : List UInt8) : Nat := if b.getLast? = some 10 then 1 else 0

/-- The last step of `readLine`: a line whose last two bytes are carriage
return and line feed gets the line feed in place of the carriage return and
is cut by one byte. -/
def foldLineEnd : List UInt8 → List UInt8
  | [] => []
  | [c] => [c]
  | c :: d :: s => if c = 13 ∧ d = 10 ∧ s = [] then [10] else c :: foldLineEnd (d :: s)

/-- The method `readLine`: the next line, the input left, and whether the
error is `io.EOF`. A final line without line feed loses a trailing carriage
return, and a line that ends in carriage return and line feed ends in a line
feed alone afterwards. -/
def readLine (inp : List UInt8) : List UInt8 × List UInt8 × Bool :=
  let line := takeLine inp
  let eof := decide (line.getLast? ≠ some 10)
  let line1 :=
    if line.length > 0 ∧ eof = true then
      (if line.getLast? = some 13 then line.dropLast else line)
    else line
  let eof1 := if line.length > 0 ∧ eof = true then false else eof
  (foldLineEnd line1, dropLine inp, eof1)

/-- The function `bytes.IndexByte`. -/
def indexByte (c : UInt8) : List UInt8 → Option Nat
  | [] => none
  | x :: s => if x = c then some 0 else (indexByte c s).map (fun i => i + 1)

/-- The first loop of `readRecord`: read lines, skipping empty ones. -/
def nextLine : Nat → List UInt8 → Except ReadError (List UInt8 × List UInt8)
  | 0, _ => .error .RoundsExceeded
  | fuel + 1, inp =>
    match readLine inp with
    | (line, rest, eof) =>
      if eof = false ∧ line.length = lengthNL line then nextLine fuel rest
      else if eof = true then .error .EOF
      else .ok (line, rest)

mutual
/-- The loop `parseField` of `readRecord`, at the start of a field: `line` is
what is left of the current line, `rest` the input after it, `fields` the
fields completed so far. It yields the fields of the record and the input
left. -/
def parseFields : Nat → List UInt8 → List UInt8 → List GoString →
    Except ReadError (List GoString × List UInt8)
  | 0, _, _, _ => .error .RoundsExceeded
  | fuel + 1, line, rest, fields =>
    if line.head? ≠ some 34 then
      match indexByte 44 line with
      | some i =>
        if 34 ∈ line.take i then .error .ErrBareQuote
        else parseFields fuel (line.drop (i + 1)) rest (fields ++ [line.take i])
      | none =>
        if 34 ∈ line.take (line.length - lengthNL line) then .error .ErrBareQuote
        else .ok (fields ++ [line.take (line.length - lengthNL line)], rest)
    else quotedLoop fuel (line.drop 1) rest [] fields
/-- The inner loop of `readRecord` over a quoted field, after its opening
quote: `buf` holds the bytes of the field read so far. -/
def quotedLoop : Nat → List UInt8 → List UInt8 → GoString → List GoString →
    Except ReadError (List GoString × List UInt8)
  | 0, _, _, _, _ => .error .RoundsExceeded
  | fuel + 1, line, rest, buf, fields =>
    match indexByte 34 line with
    | some i =>
      if (line.drop (i + 1)).head? = some 34 then
        quotedLoop fuel (line.drop (i + 2)) rest (buf ++ line.take i ++ [34]) fields
      else if (line.drop (i + 1)).head? = some 44 then
        parseFields fuel (line.drop (i + 2)) rest (fields ++ [buf ++ line.take i])
      else if lengthNL (line.drop (i + 1)) = (line.drop (i + 1)).length then
        .ok (fields ++ [buf ++ line.take i], rest)
      else .error .ErrQuote
    | none =>
      if line.length > 0 then
        quotedLoop fuel (readLine rest).1 (readLine rest).2.1 (buf ++ line) fields
      else .error .ErrQuote
end

/-- The method `readRecord`: the record, the input left and the new value of
`FieldsPerRecord`. -/
def readRecord (inp : List UInt8) (fieldsPerRecord : Nat) :
    Except ReadError (List GoString × List UInt8 × Nat) :=
  match nextLine (inp.length + 1) inp with
  | .error e => .error e
  | .ok (line, rest) =>
    match parseFields (line.length + rest.length + 1) line rest [] with
    | .error e => .error e
    | .ok (dst, rest1) =>
      if fieldsPerRecord > 0 then
        (if dst.length ≠ fieldsPerRecord then .error .ErrFieldCount
         else .ok (dst, rest1, fieldsPerRecord))
      else .ok (dst, rest1, dst.length)

/-- The loop of `ReadAll`. -/
def readAllLoop : Nat → List UInt8 → Nat → List (List GoString) →
    Except ReadError (List (List GoString))
  | 0, _, _, _ => .error .RoundsExceeded
  | fuel + 1, inp, fieldsPerRecord, records =>
    match readRecord inp fieldsPerRecord with
    | .error .EOF => .ok records
    | .error e => .error e
    | .ok (record, rest, fieldsPerRecord1) =>
      readAllLoop fuel rest fieldsPerRecord1 (records ++ [record])

/-- The call `csv.NewReader(r).ReadAll()` on a reader `r` holding `inp`. -/
def ReadAll (inp : List UInt8) : Except ReadError (List (List GoString)) :=
  readAllLoop (inp.length + 1) inp 0 []

/-! ## The environment of `formatter.go`

What the file uses and does not define: the method `Score.String` of package
`core`, the template constants of package `output`, and the encoders and
template engines of the standard library. -/

/-- The value a template is executed against: `reportFromPlaintextTemplate`
and `reportFromHTMLTemplate` pass the analyzer, `reportInCheckstyleFormat`
the grouped findings. -/
inductive TemplateData where
  | analyzer (data : Analyzer)
  | grouped (issues : IssueMap)
deriving DecidableEq

/-- A template package: `New("gas").Parse` and `Execute`. -/
structure TemplateEngine (σ τ : Type) where
  Parse : GoString → Except GoError τ
  Execute : τ → Sink σ → σ → TemplateData → σ × Option GoError

/-- The environment of the report functions. -/
structure Env (σ τ : Type) where
  scoreString : Score → GoString
  text : GoString
  html : GoString
  checkstyleTemplate : GoString
  MarshalIndent : Analyzer → Except GoError GoString
  plainTemplate : TemplateEngine σ τ
  htmlTemplate : TemplateEngine σ τ

/-! ## The report functions -/

/-- The function `strconv.Itoa`. -/
def Itoa : Int → GoString
  | Int.ofNat n => (Nat.toDigits 10 n).map (fun c => UInt8.ofNat c.toNat)
  | Int.negSucc n => 45 :: (Nat.toDigits 10 (n + 1)).map (fun c => UInt8.ofNat c.toNat)

/-- The record `reportCSV` builds for one finding. -/
def csvRecord {σ τ : Type} (env : Env σ τ) (issue : Issue) : List GoString :=
  [issue.File, Itoa issue.Line, issue.What, env.scoreString issue.Severity,
    env.scoreString issue.Confidence, issue.Code]

/-- The function `reportJSON`. -/
def reportJSON {σ τ : Type} (env : Env σ τ) (w : Sink σ) (s : σ) (data : Analyzer) :
    Outcome σ :=
  match env.MarshalIndent data with
  | .error e => .panicked s e
  | .ok raw =>
    match w.Write s raw with
    | (s1, _, some e) => .panicked s1 e
    | (s1, _, none) => .returned s1 none

/-- The loop of `reportCSV`. Besides the writer and the error it yields the
records handed to `out.Write` so far, in order. -/
def reportCSVLoop {σ τ : Type} (env : Env σ τ) (w : Sink σ) :
    List Issue → CsvWriter σ → List (List GoString) →
      CsvWriter σ × List (List GoString) × Option GoError
  | [], out, handed => (out, handed, none)
  | issue :: rest, out, handed =>
    match CsvWriter.Write w out (csvRecord env issue) with
    | (out1, some e) => (out1, handed ++ [csvRecord env issue], some e)
    | (out1, none) => reportCSVLoop env w rest out1 (handed ++ [csvRecord env issue])

/-- The function `reportCSV`: the loop, then the deferred `out.Flush()`. It
yields the writer after the flush, the records handed to it and the error
returned. -/
def reportCSV {σ τ : Type} (env : Env σ τ) (w : Sink σ) (s : σ) (data : Analyzer) :
    CsvWriter σ × List (List GoString) × Option GoError :=
  match reportCSVLoop env w data.Issues (NewWriter s) [] with
  | (out, handed, err) => (CsvWriter.Flush w out, handed, err)

/-- The function `reportFromPlaintextTemplate`. -/
def reportFromPlaintextTemplate {σ τ : Type} (env : Env σ τ) (w : Sink σ) (s : σ)
    (reportTemplate : GoString) (data : Analyzer) : σ × Option GoError :=
  match env.plainTemplate.Parse reportTemplate with
  | .error e => (s, some e)
  | .ok t => env.plainTemplate.Execute t w s (.analyzer data)

/-- The function `reportFromHTMLTemplate`. -/
def reportFromHTMLTemplate {σ τ : Type} (env : Env σ τ) (w : Sink σ) (s : σ)
    (reportTemplate : GoString) (data : Analyzer) : σ × Option GoError :=
  match env.htmlTemplate.Parse reportTemplate with
  | .error e => (s, some e)
  | .ok t => env.htmlTemplate.Execute t w s (.analyzer data)

/-- The function `reportInCheckstyleFormat`. -/
def reportInCheckstyleFormat {σ τ : Type} (env : Env σ τ) (w : Sink σ) (s : σ)
    (data : Analyzer) : σ × Option GoError :=
  match env.plainTemplate.Parse env.checkstyleTemplate with
  | .error e => (s, some e)
  | .ok t => env.plainTemplate.Execute t w s (.grouped (aggregateIssues data.Issues))

/-- An error value returned together with the sink state. -/
def returned {σ : Type} (r : σ × Option GoError) : Outcome σ := .returned r.1 r.2

/-- The function `CreateReport`. -/
def CreateReport {σ τ : Type} (env : Env σ τ) (w : Sink σ) (s : σ) (format : GoString)
    (data : Analyzer) : Outcome σ :=
  if format = goStr "json" then reportJSON env w s data
  else if format = goStr "csv" then
    match reportCSV env w s data with
    | (out, _, err) => .returned out.w.wr err
  else if format = goStr "html" then returned (reportFromHTMLTemplate env w s env.html data)
  else if format = goStr "text" then returned (reportFromPlaintextTemplate env w s env.text data)
  else if format = goStr "checkstyle" then returned (reportInCheckstyleFormat env w s data)
  else returned (reportFromPlaintextTemplate env w s env.text data)


/-- Writing records one after the other with `Write`, up to and including
the first write that fails: the writer afterwards and the error of the last
write made. -/
def writeEach {σ : Type} (w : Sink σ) :
    CsvWriter σ → List (List GoString) → CsvWriter σ × Option GoError
  | out, [] => (out, none)
  | out, record :: rest =>
    match CsvWriter.Write w out record with
    | (out1, some e) => (out1, some e)
    | (out1, none) => writeEach w out1 rest

/-! ## What the CSV writer emits

The bytes of a field, of a record and of a sequence of records as
`csv.Writer` writes them, and the two conditions under which a
`bufio.Writer` over memory and the reader are followed in the proofs. -/

/-- A field with every quote doubled. -/
def escapeQuotes : GoString → List UInt8
  | [] => []
  | c :: s => if c = 34 then 34 :: 34 :: escapeQuotes s else c :: escapeQuotes s

/-- The bytes `csv.Writer.Write` emits for one field. -/
def encodeField (field : GoString) : List UInt8 :=
  if fieldNeedsQuotes field then 34 :: escapeQuotes field ++ [34] else field

/-- The bytes emitted for the fields after the first: a comma before each. -/
def encodeTail (fields : List GoString) : List UInt8 :=
  (fields.map (fun f => 44 :: encodeField f)).flatten

/-- The bytes `csv.Writer.Write` emits for a record. -/
def encodeRecord : List GoString → List UInt8
  | [] => [10]
  | f :: rest => encodeField f ++ encodeTail rest ++ [10]

/-- The bytes emitted for a sequence of records. -/
def encodeAll (records : List (List GoString)) : List UInt8 :=
  (records.map encodeRecord).flatten

/-- A step of a `bufio.Writer` over memory that succeeds and accepts exactly
the given bytes: no error is returned or pending, the buffer stays within
its capacity, and the bytes flushed and buffered grow by `bytes`. -/
def Accepts (r : BufWriter (List UInt8) × Option GoError) (b : BufWriter (List UInt8))
    (bytes : List UInt8) : Prop :=
  r.2 = none ∧ r.1.err = none ∧ r.1.buf.length ≤ defaultBufSize ∧
    r.1.wr ++ r.1.buf = b.wr ++ b.buf ++ bytes

/-- No error is pending and the buffer holds at most its capacity. -/
def BufWriter.Sound (b : BufWriter (List UInt8)) : Prop :=
  b.err = none ∧ b.buf.length ≤ defaultBufSize

/-- Whether a carriage return is followed at once by a line feed. -/
def hasCRLF : List UInt8 → Bool
  | [] => false
  | c :: s => (decide (c = 13) && decide (s.head? = some 10)) || hasCRLF s

/-- No carriage return before a line feed, and no carriage return at the end. -/
def Clean (s : List UInt8) : Prop := hasCRLF s = false ∧ s.getLast? ≠ some 13

/-! ## A concrete environment

Used where a statement is evaluated on concrete input. -/

/-- A template engine whose templates are plain text: `Parse` accepts every
source, `Execute` writes the source to the sink in one `Write`. -/
def literalEngine : TemplateEngine (List UInt8) GoString :=
  { Parse := fun src => .ok src
    Execute := fun t w s _ => ((w.Write s t).1, (w.Write s t).2.2) }

/-- An environment with the three levels LOW, MEDIUM and HIGH for the scores
0, 1 and 2, an encoder that yields an empty JSON object, and literal
templates. -/
def sampleEnv : Env (List UInt8) GoString :=
  { scoreString := fun n =>
      if n = 2 then goStr "HIGH" else if n = 1 then goStr "MEDIUM"
      else if n = 0 then goStr "LOW" else goStr "UNDEFINED"
    text := goStr "text report"
    html := goStr "<html></html>"
    checkstyleTemplate := goStr "<checkstyle></checkstyle>"
    MarshalIndent := fun _ => .ok (goStr "{}")
    plainTemplate := literalEngine
    htmlTemplate := literalEngine }

/-- A finding in `main.go`, line 7. -/
def sampleIssue : Issue :=
  { Severity := 2, Confidence := 1, What := goStr "Use of unsafe calls",
    File := goStr "main.go", Code := goStr "unsafe.Pointer(p)", Line := 7 }

/-- A finding whose code snippet is 5000 bytes long. -/
def longIssue : Issue :=
  { Severity := 1, Confidence := 1, What := goStr "Long line",
    File := goStr "gen.go", Code := List.replicate 5000 97, Line := 1 }

/-- A finding whose texts hold commas, quotes, line feeds, a lone carriage
return and leading spaces. -/
def quotedIssue : Issue :=
  { Severity := 0, Confidence := 2, What := goStr " say \"hi\", then\nleave",
    File := goStr "dir, with comma/a.go", Code := goStr "\n x\ry \"\"\n\n", Line := -3 }

/-- A finding whose code snippet holds a carriage return before a line feed. -/
def crlfIssue : Issue :=
  { Severity := 2, Confidence := 1, What := goStr "Use of unsafe calls",
    File := goStr "main.go", Code := goStr "a\r\nb", Line := 7 }

end Gas

namespace Gas

/-! ## Byte order of strings -/

theorem strLess_irrefl (a : GoString) : strLess a a = false := by
  induction a with
  | nil => rfl
  | cons x s ih => simp [strLess, ih]

theorem strLess_trans : ∀ (a b c : GoString),
    strLess a b = true → strLess b c = true → strLess a c = true
  | [], [], _, h, _ => by simp [strLess] at h
  | [], _ :: _, [], _, h => by simp [strLess] at h
  | [], _ :: _, _ :: _, _, _ => by simp [strLess]
  | _ :: _, [], _, h, _ => by simp [strLess] at h
  | _ :: _, _ :: _, [], _, h => by simp [strLess] at h
  | x :: s, y :: t, z :: u, h1, h2 => by
    simp only [strLess] at h1 h2 ⊢
    by_cases hxy : x.toNat < y.toNat
    · by_cases hyz : y.toNat < z.toNat
      · have : x.toNat < z.toNat := by omega
        simp [this]
      · by_cases hzy : z.toNat < y.toNat
        · simp [hyz, hzy] at h2
        · have : x.toNat < z.toNat := by omega
          simp [this]
    · by_cases hyx : y.toNat < x.toNat
      · simp [hxy, hyx] at h1
      · simp only [hxy, hyx, if_false] at h1
        by_cases hyz : y.toNat < z.toNat
        · have : x.toNat < z.toNat := by omega
          simp [this]
        · by_cases hzy : z.toNat < y.toNat
          · simp [hyz, hzy] at h2
          · simp only [hyz, hzy, if_false] at h2
            have h3 : ¬ x.toNat < z.toNat := by omega
            have h4 : ¬ z.toNat < x.toNat := by omega
            simp only [h3, h4, if_false]
            exact strLess_trans s t u h1 h2

theorem strLess_total : ∀ (a b : GoString),
    strLess a b = false → a ≠ b → strLess b a = true
  | [], [], _, h => absurd rfl h
  | [], _ :: _, h, _ => by simp [strLess] at h
  | _ :: _, [], _, _ => by simp [strLess]
  | x :: s, y :: t, h, hne => by
    simp only [strLess] at h ⊢
    by_cases hxy : x.toNat < y.toNat
    · simp [hxy] at h
    · by_cases hyx : y.toNat < x.toNat
      · simp [hyx]
      · simp only [hxy, hyx, if_false] at h ⊢
        have hx : x = y := UInt8.ext (by omega)
        subst hx
        exact strLess_total s t h (fun e => hne (by rw [e]))

theorem strLess_ne {a b : GoString} (h : strLess a b = true) : a ≠ b := by
  intro e
  subst e
  rw [strLess_irrefl] at h
  cases h

end Gas

namespace Gas

/-! ## Laws of the map operations -/

theorem IssueMap.get_set (m : IssueMap) (k k' : GoString) (v : List Issue) :
    IssueMap.get (IssueMap.set m k v) k' = if k' = k then v else IssueMap.get m k' := by
  induction m with
  | nil => simp [IssueMap.set, IssueMap.get]
  | cons e rest ih =>
    obtain ⟨k0, g⟩ := e
    simp only [IssueMap.set]
    by_cases h0 : k = k0
    · subst h0
      by_cases h1 : k' = k <;> simp [IssueMap.get, h1]
    · simp only [h0, if_false]
      by_cases h2 : strLess k k0 = true
      · simp only [h2, if_true]
        by_cases h1 : k' = k <;> simp [IssueMap.get, h1]
      · rw [if_neg h2]
        have h0' : ¬ k0 = k := fun e => h0 e.symm
        by_cases h1 : k' = k
        · subst h1
          simp [IssueMap.get, h0, ih]
        · by_cases h3 : k' = k0
          · subst h3
            simp [IssueMap.get, h0']
          · simp [IssueMap.get, h1, h3, ih]

theorem IssueMap.mem_rangeKeys_set (m : IssueMap) (k k' : GoString) (v : List Issue) :
    k' ∈ IssueMap.rangeKeys (IssueMap.set m k v) ↔ k' = k ∨ k' ∈ IssueMap.rangeKeys m := by
  induction m with
  | nil => simp [IssueMap.set, IssueMap.rangeKeys]
  | cons e rest ih =>
    obtain ⟨k0, g⟩ := e
    simp only [IssueMap.rangeKeys] at ih
    simp only [IssueMap.set]
    by_cases h0 : k = k0
    · subst h0
      simp [IssueMap.rangeKeys]
    · simp only [h0, if_false]
      by_cases h2 : strLess k k0 = true
      · simp [h2, IssueMap.rangeKeys]
      · rw [if_neg h2]
        simp only [IssueMap.rangeKeys, List.map_cons, List.mem_cons, ih]
        tauto

theorem IssueMap.get_of_not_mem (m : IssueMap) (k : GoString)
    (h : k ∉ IssueMap.rangeKeys m) : IssueMap.get m k = [] := by
  induction m with
  | nil => rfl
  | cons e rest ih =>
    obtain ⟨k0, g⟩ := e
    simp only [IssueMap.rangeKeys, List.map_cons, List.mem_cons, not_or] at h
    simp only [IssueMap.get, h.1, if_false]
    exact ih h.2

theorem IssueMap.ascending_set (m : IssueMap) (k : GoString) (v : List Issue)
    (h : IssueMap.Ascending m) : IssueMap.Ascending (IssueMap.set m k v) := by
  induction m with
  | nil => simp [IssueMap.set, IssueMap.Ascending]
  | cons e rest ih =>
    obtain ⟨k0, g⟩ := e
    simp only [IssueMap.Ascending, List.map_cons, List.pairwise_cons] at h
    simp only [IssueMap.set]
    by_cases h0 : k = k0
    · subst h0
      simpa [IssueMap.Ascending] using h
    · simp only [h0, if_false]
      by_cases h2 : strLess k k0 = true
      · simp only [h2, if_true, IssueMap.Ascending, List.map_cons, List.pairwise_cons]
        refine ⟨?_, h⟩
        intro a ha
        rcases List.mem_cons.1 ha with rfl | ha
        · exact h2
        · exact strLess_trans _ _ _ h2 (h.1 a ha)
      · rw [if_neg h2]
        simp only [IssueMap.Ascending, List.map_cons, List.pairwise_cons]
        refine ⟨?_, ih h.2⟩
        intro a ha
        have ha' : a ∈ IssueMap.rangeKeys (IssueMap.set rest k v) := ha
        rcases (IssueMap.mem_rangeKeys_set rest k a v).1 ha' with rfl | hr
        · exact strLess_total _ _ (by simpa using h2) h0
        · exact h.1 a hr

theorem IssueMap.ascending_nodup (m : IssueMap) (h : IssueMap.Ascending m) :
    (IssueMap.rangeKeys m).Nodup :=
  List.Pairwise.imp (fun hab => strLess_ne hab) h

theorem IssueMap.get_of_mem (m : IssueMap) (h : IssueMap.Ascending m)
    (k : GoString) (g : List Issue) (hm : (k, g) ∈ m) : IssueMap.get m k = g := by
  induction m with
  | nil => cases hm
  | cons e rest ih =>
    obtain ⟨k0, g0⟩ := e
    simp only [IssueMap.Ascending, List.map_cons, List.pairwise_cons] at h
    rcases List.mem_cons.1 hm with heq | hr
    · cases heq
      simp [IssueMap.get]
    · have hk : k ≠ k0 := by
        have : k ∈ rest.map Prod.fst := List.mem_map.2 ⟨(k, g), hr, rfl⟩
        exact (strLess_ne (h.1 k this)).symm
      simp only [IssueMap.get, hk, if_false]
      exact ih h.2 hr

theorem IssueMap.mem_of_mem_rangeKeys (m : IssueMap) (k : GoString)
    (h : k ∈ IssueMap.rangeKeys m) : (k, IssueMap.get m k) ∈ m := by
  induction m with
  | nil => cases h
  | cons e rest ih =>
    obtain ⟨k0, g0⟩ := e
    by_cases hk : k = k0
    · subst hk
      simp [IssueMap.get]
    · simp only [IssueMap.rangeKeys, List.map_cons, List.mem_cons, hk, false_or] at h
      simp only [IssueMap.get, hk, if_false]
      exact List.mem_cons_of_mem _ (ih h)

/-- Storing the group of `k` extended by one finding adds exactly that finding
to the concatenation of all groups. -/
theorem IssueMap.flatten_set_append (m : IssueMap) (h : IssueMap.Ascending m)
    (k : GoString) (x : Issue) :
    List.Perm (IssueMap.groups (IssueMap.set m k (IssueMap.get m k ++ [x]))).flatten
      (x :: (IssueMap.groups m).flatten) := by
  induction m with
  | nil => simp [IssueMap.set, IssueMap.get, IssueMap.groups]
  | cons e rest ih =>
    obtain ⟨k0, g⟩ := e
    simp only [IssueMap.Ascending, List.map_cons, List.pairwise_cons] at h
    simp only [IssueMap.set]
    by_cases h0 : k = k0
    · subst h0
      simp only [if_true, IssueMap.get, IssueMap.groups, List.map_cons, List.flatten_cons,
        List.append_assoc]
      exact (@List.perm_middle _ x g (List.map Prod.snd rest).flatten)
    · simp only [h0, if_false]
      by_cases h2 : strLess k k0 = true
      · have hnot : k ∉ IssueMap.rangeKeys rest := by
          intro hk
          exact strLess_ne (strLess_trans _ _ _ h2 (h.1 k hk)) rfl
        have hg : IssueMap.get rest k = [] := IssueMap.get_of_not_mem rest k hnot
        simp [h2, IssueMap.get, h0, hg, IssueMap.groups]
      · rw [if_neg h2]
        simp only [IssueMap.get, h0, if_false, IssueMap.groups, List.map_cons,
          List.flatten_cons]
        have ih' := ih h.2
        simp only [IssueMap.groups] at ih'
        exact (List.Perm.append_left g ih').trans
          (@List.perm_middle _ x g (List.map Prod.snd rest).flatten)

/-! ## `aggregateIssues` against direct grouping -/

theorem aggregateLoop_fst (issues : List Issue) (m : IssueMap) (last : GoString) :
    (aggregateLoop issues (m, last)).1 = aggregateDirect issues m := by
  induction issues generalizing m last with
  | nil => rfl
  | cons is rest ih =>
    simp only [aggregateLoop, aggregateDirect]
    by_cases h : is.File = last
    · subst h
      simp [ih]
    · simp [h, ih]

theorem aggregateDirect_get (issues : List Issue) (m : IssueMap) (f : GoString) :
    IssueMap.get (aggregateDirect issues m) f
      = IssueMap.get m f ++ issues.filter (fun is => decide (is.File = f)) := by
  induction issues generalizing m with
  | nil => simp [aggregateDirect]
  | cons is rest ih =>
    simp only [aggregateDirect, ih, IssueMap.get_set]
    by_cases h : f = is.File
    · subst h
      simp
    · have h' : ¬ is.File = f := fun e => h e.symm
      simp [h, h']

theorem aggregateDirect_ascending (issues : List Issue) (m : IssueMap)
    (h : IssueMap.Ascending m) : IssueMap.Ascending (aggregateDirect issues m) := by
  induction issues generalizing m with
  | nil => exact h
  | cons is rest ih => exact ih _ (IssueMap.ascending_set _ _ _ h)

theorem aggregateDirect_mem_rangeKeys (issues : List Issue) (m : IssueMap) (f : GoString) :
    f ∈ IssueMap.rangeKeys (aggregateDirect issues m)
      ↔ f ∈ IssueMap.rangeKeys m ∨ ∃ is ∈ issues, is.File = f := by
  induction issues generalizing m with
  | nil => simp [aggregateDirect]
  | cons is rest ih =>
    simp only [aggregateDirect, ih, IssueMap.mem_rangeKeys_set, List.mem_cons]
    constructor
    · rintro ((rfl | h) | ⟨x, hx, rfl⟩)
      · exact Or.inr ⟨is, Or.inl rfl, rfl⟩
      · exact Or.inl h
      · exact Or.inr ⟨x, Or.inr hx, rfl⟩
    · rintro (h | ⟨x, rfl | hx, rfl⟩)
      · exact Or.inl (Or.inr h)
      · exact Or.inl (Or.inl rfl)
      · exact Or.inr ⟨x, hx, rfl⟩

theorem aggregateDirect_flatten (issues : List Issue) (m : IssueMap)
    (h : IssueMap.Ascending m) :
    List.Perm (IssueMap.groups (aggregateDirect issues m)).flatten
      ((IssueMap.groups m).flatten ++ issues) := by
  induction issues generalizing m with
  | nil => simp [aggregateDirect]
  | cons is rest ih =>
    simp only [aggregateDirect]
    refine (ih _ (IssueMap.ascending_set _ _ _ h)).trans ?_
    refine (List.Perm.append_right rest (IssueMap.flatten_set_append m h is.File is)).trans ?_
    simpa using (@List.perm_middle _ is (IssueMap.groups m).flatten rest).symm

theorem firstSeen_mem (issues : List Issue) (f : GoString) :
    f ∈ firstSeen issues ↔ ∃ is ∈ issues, is.File = f := by
  induction issues with
  | nil => simp [firstSeen]
  | cons is rest ih =>
    simp only [firstSeen, List.mem_cons, List.mem_filter, ih, decide_eq_true_eq]
    constructor
    · rintro (rfl | ⟨⟨x, hx, rfl⟩, _⟩)
      · exact ⟨is, Or.inl rfl, rfl⟩
      · exact ⟨x, Or.inr hx, rfl⟩
    · rintro ⟨x, rfl | hx, rfl⟩
      · exact Or.inl rfl
      · by_cases h : x.File = is.File
        · exact Or.inl h
        · exact Or.inr ⟨⟨x, hx, rfl⟩, h⟩

theorem firstSeen_nodup (issues : List Issue) : (firstSeen issues).Nodup := by
  induction issues with
  | nil => simp [firstSeen]
  | cons is rest ih =>
    simp only [firstSeen, List.nodup_cons, List.mem_filter, decide_eq_true_eq]
    exact ⟨fun h => h.2 rfl, ih.filter _⟩

end Gas

namespace Gas

/-! ## Grouping by file: the claims -/

/-- C1: `aggregateIssues` loses and duplicates nothing and keeps order. The
concatenation of all groups is a permutation of the input, the group lengths
sum to the input length, no key occurs twice, and every group is a
subsequence of the input. -/
theorem aggregateIssues_partition (issues : List Issue) :
    List.Perm (IssueMap.groups (aggregateIssues issues)).flatten issues ∧
    ((IssueMap.groups (aggregateIssues issues)).map List.length).sum = issues.length ∧
    (IssueMap.rangeKeys (aggregateIssues issues)).Nodup ∧
    ∀ g ∈ IssueMap.groups (aggregateIssues issues), List.Sublist g issues := by
  have hasc : IssueMap.Ascending (aggregateIssues issues) := by
    unfold aggregateIssues
    rw [aggregateLoop_fst]
    exact aggregateDirect_ascending issues [] List.Pairwise.nil
  have hperm : List.Perm (IssueMap.groups (aggregateIssues issues)).flatten issues := by
    unfold aggregateIssues
    rw [aggregateLoop_fst]
    simpa [IssueMap.groups] using aggregateDirect_flatten issues [] List.Pairwise.nil
  refine ⟨hperm, ?_, IssueMap.ascending_nodup _ hasc, ?_⟩
  · rw [← List.length_flatten]
    exact hperm.length_eq
  · intro g hg
    obtain ⟨⟨k, g'⟩, hmem, rfl⟩ := List.mem_map.1 hg
    have hget := IssueMap.get_of_mem _ hasc k g' hmem
    unfold aggregateIssues at hget
    rw [aggregateLoop_fst, aggregateDirect_get] at hget
    simp only [IssueMap.get, List.nil_append] at hget
    rw [← hget]
    exact List.filter_sublist issues

/-- C2: the group stored under a file path is the input filtered to that
path, in input order; a path is a key exactly when some finding carries it;
and the cursor `last` makes no difference against appending every finding to
the group of its own path directly. -/
theorem aggregateIssues_groups (issues : List Issue) :
    (∀ f, IssueMap.get (aggregateIssues issues) f
        = issues.filter (fun is => decide (is.File = f))) ∧
    (∀ f g, (f, g) ∈ aggregateIssues issues ↔
        g = issues.filter (fun is => decide (is.File = f)) ∧ ∃ is ∈ issues, is.File = f) ∧
    (∀ f, f ∈ IssueMap.rangeKeys (aggregateIssues issues) ↔ ∃ is ∈ issues, is.File = f) ∧
    aggregateIssues issues = aggregateDirect issues [] := by
  have heq : aggregateIssues issues = aggregateDirect issues [] := by
    unfold aggregateIssues
    exact aggregateLoop_fst issues [] []
  have hasc : IssueMap.Ascending (aggregateIssues issues) := by
    rw [heq]
    exact aggregateDirect_ascending issues [] List.Pairwise.nil
  have hget : ∀ f, IssueMap.get (aggregateIssues issues) f
      = issues.filter (fun is => decide (is.File = f)) := by
    intro f
    rw [heq, aggregateDirect_get]
    rfl
  have hkeys : ∀ f, f ∈ IssueMap.rangeKeys (aggregateIssues issues)
      ↔ ∃ is ∈ issues, is.File = f := by
    intro f
    rw [heq, aggregateDirect_mem_rangeKeys]
    simp [IssueMap.rangeKeys]
  refine ⟨hget, ?_, hkeys, heq⟩
  intro f g
  constructor
  · intro hm
    refine ⟨?_, (hkeys f).1 (List.mem_map.2 ⟨(f, g), hm, rfl⟩)⟩
    rw [← hget f]
    exact (IssueMap.get_of_mem _ hasc f g hm).symm
  · rintro ⟨rfl, hex⟩
    rw [← hget f]
    exact IssueMap.mem_of_mem_rangeKeys _ f ((hkeys f).2 hex)

/-- C3, as stated, fails: for findings of the files b, a, b the groups are
visited in the order a, b, while the order of first occurrence is b, a. The
grouped view is the same map as the one built from the findings a, b, b. -/
theorem checkstyle_order_not_first_seen :
    IssueMap.rangeKeys (aggregateIssues
        [⟨0, 0, goStr "w", goStr "b", goStr "c", 1⟩,
         ⟨0, 0, goStr "w", goStr "a", goStr "c", 2⟩,
         ⟨0, 0, goStr "w", goStr "b", goStr "c", 3⟩]) = [goStr "a", goStr "b"] ∧
    firstSeen
        [⟨0, 0, goStr "w", goStr "b", goStr "c", 1⟩,
         ⟨0, 0, goStr "w", goStr "a", goStr "c", 2⟩,
         ⟨0, 0, goStr "w", goStr "b", goStr "c", 3⟩] = [goStr "b", goStr "a"] ∧
    aggregateIssues
        [⟨0, 0, goStr "w", goStr "b", goStr "c", 1⟩,
         ⟨0, 0, goStr "w", goStr "a", goStr "c", 2⟩,
         ⟨0, 0, goStr "w", goStr "b", goStr "c", 3⟩]
      = aggregateIssues
        [⟨0, 0, goStr "w", goStr "a", goStr "c", 2⟩,
         ⟨0, 0, goStr "w", goStr "b", goStr "c", 1⟩,
         ⟨0, 0, goStr "w", goStr "b", goStr "c", 3⟩] := by
  decide

/-- C3, amended: the grouped view has one group per distinct file path, its
groups are visited in strictly ascending byte order of the file paths, and
it is this view that `reportInCheckstyleFormat` executes the parsed
checkstyle template against. -/
theorem checkstyle_order_ascending (issues : List Issue) :
    List.Perm (IssueMap.rangeKeys (aggregateIssues issues)) (firstSeen issues) ∧
    List.Pairwise (fun a b => strLess a b = true)
      (IssueMap.rangeKeys (aggregateIssues issues)) ∧
    (∀ {σ τ : Type} (env : Env σ τ) (w : Sink σ) (s : σ) (t : τ),
      env.plainTemplate.Parse env.checkstyleTemplate = .ok t →
      reportInCheckstyleFormat env w s ⟨issues⟩
        = env.plainTemplate.Execute t w s (.grouped (aggregateIssues issues))) := by
  have heq : aggregateIssues issues = aggregateDirect issues [] := by
    unfold aggregateIssues
    exact aggregateLoop_fst issues [] []
  have hasc : IssueMap.Ascending (aggregateIssues issues) := by
    rw [heq]
    exact aggregateDirect_ascending issues [] List.Pairwise.nil
  refine ⟨?_, hasc, ?_⟩
  · rw [List.perm_ext_iff_of_nodup (IssueMap.ascending_nodup _ hasc) (firstSeen_nodup issues)]
    intro f
    rw [firstSeen_mem, heq, aggregateDirect_mem_rangeKeys]
    simp [IssueMap.rangeKeys]
  · intro σ τ env w s t ht
    simp only [reportInCheckstyleFormat, ht]

end Gas

namespace Gas

/-! ## The dispatcher and the CSV loop: the claims -/

/-- C3, amended, for findings of the files b, a, b: the template is executed
against the grouped view, whose keys are a, b. -/
theorem checkstyle_order_ascending_witness :
    reportInCheckstyleFormat sampleEnv memSink []
        ⟨[⟨0, 0, goStr "w", goStr "b", goStr "c", 1⟩,
          ⟨0, 0, goStr "w", goStr "a", goStr "c", 2⟩,
          ⟨0, 0, goStr "w", goStr "b", goStr "c", 3⟩]⟩
      = sampleEnv.plainTemplate.Execute (goStr "<checkstyle></checkstyle>") memSink []
          (.grouped (aggregateIssues
            [⟨0, 0, goStr "w", goStr "b", goStr "c", 1⟩,
             ⟨0, 0, goStr "w", goStr "a", goStr "c", 2⟩,
             ⟨0, 0, goStr "w", goStr "b", goStr "c", 3⟩])) :=
  (checkstyle_order_ascending
      [⟨0, 0, goStr "w", goStr "b", goStr "c", 1⟩,
       ⟨0, 0, goStr "w", goStr "a", goStr "c", 2⟩,
       ⟨0, 0, goStr "w", goStr "b", goStr "c", 3⟩]).2.2
    sampleEnv memSink [] (goStr "<checkstyle></checkstyle>") rfl

/-- C4: for every format that is none of "json", "csv", "html", "text" and
"checkstyle", `CreateReport` does exactly what it does for "text": the same
sink state and the same error value. -/
theorem CreateReport_fallback {σ τ : Type} (env : Env σ τ) (w : Sink σ) (s : σ)
    (format : GoString) (data : Analyzer)
    (hjson : format ≠ goStr "json") (hcsv : format ≠ goStr "csv")
    (hhtml : format ≠ goStr "html") (htext : format ≠ goStr "text")
    (hcheck : format ≠ goStr "checkstyle") :
    CreateReport env w s format data = CreateReport env w s (goStr "text") data := by
  have h1 : goStr "text" ≠ goStr "json" := by decide
  have h2 : goStr "text" ≠ goStr "csv" := by decide
  have h3 : goStr "text" ≠ goStr "html" := by decide
  unfold CreateReport
  rw [if_neg hjson, if_neg hcsv, if_neg hhtml, if_neg htext, if_neg hcheck,
    if_neg h1, if_neg h2, if_neg h3, if_pos rfl]

/-- C4 at the formats "JSON" and the empty string. -/
theorem CreateReport_fallback_witness :
    CreateReport sampleEnv memSink [] (goStr "JSON") ⟨[sampleIssue]⟩
        = CreateReport sampleEnv memSink [] (goStr "text") ⟨[sampleIssue]⟩ ∧
    CreateReport sampleEnv memSink [] [] ⟨[sampleIssue]⟩
        = CreateReport sampleEnv memSink [] (goStr "text") ⟨[sampleIssue]⟩ :=
  ⟨CreateReport_fallback sampleEnv memSink [] (goStr "JSON") ⟨[sampleIssue]⟩
      (by decide) (by decide) (by decide) (by decide) (by decide),
   CreateReport_fallback sampleEnv memSink [] [] ⟨[sampleIssue]⟩
      (by decide) (by decide) (by decide) (by decide) (by decide)⟩

theorem reportCSVLoop_handed {σ τ : Type} (env : Env σ τ) (w : Sink σ) (issues : List Issue)
    (out : CsvWriter σ) (handed : List (List GoString)) :
    ∃ k, k ≤ issues.length ∧
      (reportCSVLoop env w issues out handed).2.1
        = handed ++ (issues.take k).map (csvRecord env) ∧
      ((reportCSVLoop env w issues out handed).2.2 = none → k = issues.length) := by
  induction issues generalizing out handed with
  | nil => exact ⟨0, le_refl _, by simp [reportCSVLoop], fun _ => rfl⟩
  | cons issue rest ih =>
    simp only [reportCSVLoop]
    rcases hw : CsvWriter.Write w out (csvRecord env issue) with ⟨out1, _ | e⟩
    · obtain ⟨k, hk, hrec, hnil⟩ := ih out1 (handed ++ [csvRecord env issue])
      refine ⟨k + 1, by simpa using hk, ?_, ?_⟩
      · simpa using hrec
      · intro h
        simpa using hnil h
    · exact ⟨1, by simp, by simp, by simp⟩

theorem reportCSVLoop_append {σ τ : Type} (env : Env σ τ) (w : Sink σ)
    (pre post : List Issue) (out0 out : CsvWriter σ) (handed0 handed : List (List GoString))
    (h : reportCSVLoop env w pre out0 handed0 = (out, handed, none)) :
    reportCSVLoop env w (pre ++ post) out0 handed0 = reportCSVLoop env w post out handed := by
  induction pre generalizing out0 handed0 with
  | nil =>
    simp only [reportCSVLoop, Prod.mk.injEq] at h
    obtain ⟨rfl, rfl, -⟩ := h
    rfl
  | cons issue rest ih =>
    simp only [List.cons_append, reportCSVLoop] at h ⊢
    rcases hw : CsvWriter.Write w out0 (csvRecord env issue) with ⟨out1, _ | e⟩
    · rw [hw] at h
      exact ih _ _ h
    · rw [hw] at h
      simp at h

end Gas

namespace Gas

/-- C8: if the writes of the records of the findings before the i-th succeed
and the write of the record of the i-th finding fails with `e`, then
`reportCSV` returns `e`, the records handed to the writer end with that of
the i-th finding, and `CreateReport` with format "csv" returns `e`. -/
theorem reportCSV_write_failure {σ τ : Type} (env : Env σ τ) (w : Sink σ) (s : σ)
    (pre post : List Issue) (issue : Issue) (out out1 : CsvWriter σ)
    (handed : List (List GoString)) (e : GoError)
    (hpre : reportCSVLoop env w pre (NewWriter s) [] = (out, handed, none))
    (hfail : CsvWriter.Write w out (csvRecord env issue) = (out1, some e)) :
    (reportCSV env w s ⟨pre ++ issue :: post⟩).2.2 = some e ∧
    (reportCSV env w s ⟨pre ++ issue :: post⟩).2.1 = (pre ++ [issue]).map (csvRecord env) ∧
    CreateReport env w s (goStr "csv") ⟨pre ++ issue :: post⟩
      = .returned (CsvWriter.Flush w out1).w.wr (some e) := by
  have hloop : reportCSVLoop env w (pre ++ issue :: post) (NewWriter s) []
      = (out1, handed ++ [csvRecord env issue], some e) := by
    rw [reportCSVLoop_append env w pre (issue :: post) _ _ _ _ hpre]
    simp only [reportCSVLoop, hfail]
  have hhanded : handed = pre.map (csvRecord env) := by
    obtain ⟨k, _, hrec, hnil⟩ := reportCSVLoop_handed env w pre (NewWriter s) []
    rw [hpre] at hrec hnil
    have hk := hnil rfl
    rw [hk, List.take_length] at hrec
    simpa using hrec
  have hcsv : goStr "csv" ≠ goStr "json" := by decide
  refine ⟨?_, ?_, ?_⟩
  · simp only [reportCSV, hloop]
  · simp only [reportCSV, hloop, hhanded, List.map_append, List.map_cons, List.map_nil]
  · unfold CreateReport
    rw [if_neg hcsv, if_pos rfl]
    simp only [reportCSV, hloop]

/-- C8 on a sink that fails: the record of the second finding does not fit
in the buffer of the writer any more, its write fails, and the third finding
is never handed over. -/
theorem reportCSV_write_failure_witness :
    (reportCSV sampleEnv (brokenSink ⟨"broken pipe"⟩) []
        ⟨[sampleIssue] ++ longIssue :: [sampleIssue]⟩).2.2 = some ⟨"broken pipe"⟩ ∧
    (reportCSV sampleEnv (brokenSink ⟨"broken pipe"⟩) []
        ⟨[sampleIssue] ++ longIssue :: [sampleIssue]⟩).2.1
      = ([sampleIssue] ++ [longIssue]).map (csvRecord sampleEnv) ∧
    CreateReport sampleEnv (brokenSink ⟨"broken pipe"⟩) [] (goStr "csv")
        ⟨[sampleIssue] ++ longIssue :: [sampleIssue]⟩
      = .returned (CsvWriter.Flush (brokenSink ⟨"broken pipe"⟩)
          (CsvWriter.Write (brokenSink ⟨"broken pipe"⟩)
            (reportCSVLoop sampleEnv (brokenSink ⟨"broken pipe"⟩) [sampleIssue]
              (NewWriter []) []).1 (csvRecord sampleEnv longIssue)).1).w.wr
          (some ⟨"broken pipe"⟩) :=
  reportCSV_write_failure sampleEnv (brokenSink ⟨"broken pipe"⟩) [] [sampleIssue] [sampleIssue]
    longIssue _ _ _ ⟨"broken pipe"⟩ (by rfl) (by decide!)

end Gas

namespace Gas

/-- C7, evaluated on a sink whose every write fails: `reportCSV` returns nil
for one finding although the flush has failed, the writer holds the error of
the flush, and nothing has reached the sink; `CreateReport` with format
"csv" returns nil as well. -/
theorem reportCSV_flush_error_dropped :
    (reportCSV sampleEnv (brokenSink ⟨"broken pipe"⟩) [] ⟨[sampleIssue]⟩).2.2 = none ∧
    CsvWriter.Error (reportCSV sampleEnv (brokenSink ⟨"broken pipe"⟩) [] ⟨[sampleIssue]⟩).1
      = some ⟨"broken pipe"⟩ ∧
    (reportCSV sampleEnv (brokenSink ⟨"broken pipe"⟩) [] ⟨[sampleIssue]⟩).1.w.wr = [] ∧
    CreateReport sampleEnv (brokenSink ⟨"broken pipe"⟩) [] (goStr "csv") ⟨[sampleIssue]⟩
      = .returned [] none := by
  decide

/-- C9, evaluated on a sink whose every write fails: on the JSON path the
failing write makes `CreateReport` panic with the error of the write; the
error is not returned to the caller. -/
theorem CreateReport_json_write_panics :
    CreateReport sampleEnv (brokenSink ⟨"broken pipe"⟩) [] (goStr "json") ⟨[sampleIssue]⟩
      = .panicked [] ⟨"broken pipe"⟩ ∧
    CreateReport sampleEnv (brokenSink ⟨"broken pipe"⟩) [] (goStr "json") ⟨[sampleIssue]⟩
      ≠ .returned [] (some ⟨"broken pipe"⟩) := by
  decide

end Gas

namespace Gas

/-! ## The CSV writer over memory -/

theorem Accepts.sound {r : BufWriter (List UInt8) × Option GoError}
    {b : BufWriter (List UInt8)} {bytes : List UInt8} (h : Accepts r b bytes) : r.1.Sound :=
  ⟨h.2.1, h.2.2.1⟩

theorem flush_mem (buf wr : List UInt8) :
    BufWriter.Flush memSink ⟨none, buf, wr⟩ = (⟨none, [], wr ++ buf⟩, none) := by
  by_cases hb : buf.length = 0
  · have hnil : buf = [] := List.length_eq_zero.1 hb
    subst hnil
    simp [BufWriter.Flush]
  · simp [BufWriter.Flush, hb, memSink]

theorem writeByte_mem (b : BufWriter (List UInt8)) (c : UInt8) (h : b.Sound) :
    Accepts (BufWriter.WriteByte memSink b c) b [c] := by
  obtain ⟨err, buf, wr⟩ := b
  obtain ⟨he, hl⟩ := h
  simp only at he hl
  subst he
  unfold BufWriter.WriteByte
  simp only [flush_mem]
  by_cases ha : (BufWriter.mk none buf wr).Available ≤ 0
  · rw [if_pos ha]
    refine ⟨rfl, rfl, ?_, ?_⟩
    · simp [defaultBufSize]
    · simp
  · rw [if_neg ha]
    simp only [BufWriter.Available] at ha
    refine ⟨rfl, rfl, ?_, ?_⟩
    · simp only [List.length_append, List.length_singleton]
      omega
    · simp

theorem fillLoop_mem (fuel : Nat) (buf wr s : List UInt8)
    (hl : buf.length ≤ defaultBufSize)
    (hfuel : s.length ≤ defaultBufSize - buf.length + defaultBufSize * fuel) :
    ∃ buf1 wr1 s1, BufWriter.fillLoop memSink fuel ⟨none, buf, wr⟩ s = (⟨none, buf1, wr1⟩, s1) ∧
      buf1.length + s1.length ≤ defaultBufSize ∧ wr1 ++ buf1 ++ s1 = wr ++ buf ++ s := by
  induction fuel generalizing buf wr s with
  | zero =>
    refine ⟨buf, wr, s, rfl, ?_, rfl⟩
    omega
  | succ fuel ih =>
    simp only [BufWriter.fillLoop, BufWriter.Available, and_true]
    by_cases hc : s.length > defaultBufSize - buf.length
    · rw [if_pos hc]
      by_cases hb : buf.length = 0
      · have hnil : buf = [] := List.length_eq_zero.1 hb
        subst hnil
        simp only [List.length_nil, if_true, memSink, List.drop_length]
        obtain ⟨buf1, wr1, s1, h1, h2, h3⟩ := ih [] (wr ++ s) [] (by simp) (by simp)
        refine ⟨buf1, wr1, s1, h1, h2, ?_⟩
        rw [h3]
        simp
      · rw [if_neg hb]
        simp only [flush_mem]
        obtain ⟨buf1, wr1, s1, h1, h2, h3⟩ := ih []
          (wr ++ (buf ++ s.take (defaultBufSize - buf.length)))
          (s.drop (defaultBufSize - buf.length)) (by simp) (by
            simp only [List.length_drop, List.length_nil]
            rw [Nat.mul_succ] at hfuel
            omega)
        refine ⟨buf1, wr1, s1, h1, h2, ?_⟩
        rw [h3]
        simp
    · rw [if_neg hc]
      refine ⟨buf, wr, s, rfl, ?_, rfl⟩
      omega

theorem writeString_mem (b : BufWriter (List UInt8)) (s : List UInt8) (h : b.Sound) :
    Accepts (BufWriter.WriteString memSink b s) b s := by
  obtain ⟨err, buf, wr⟩ := b
  obtain ⟨he, hl⟩ := h
  simp only at he hl
  subst he
  obtain ⟨buf1, wr1, s1, h1, h2, h3⟩ := fillLoop_mem (s.length + 1) buf wr s hl (by
    simp only [defaultBufSize]
    omega)
  unfold BufWriter.WriteString
  rw [h1]
  refine ⟨rfl, rfl, ?_, ?_⟩
  · simpa using h2
  · simpa using h3

theorem Accepts.eq_pair {r : BufWriter (List UInt8) × Option GoError}
    {b : BufWriter (List UInt8)} {bytes : List UInt8} (h : Accepts r b bytes) :
    r = (r.1, none) := by
  obtain ⟨r1, r2⟩ := r
  have := h.1
  simp only at this
  subst this
  rfl

theorem Accepts.trans {r : BufWriter (List UInt8) × Option GoError}
    {b1 b : BufWriter (List UInt8)} {x y : List UInt8}
    (h1 : b1.wr ++ b1.buf = b.wr ++ b.buf ++ x) (h2 : Accepts r b1 y) :
    Accepts r b (x ++ y) := by
  refine ⟨h2.1, h2.2.1, h2.2.2.1, ?_⟩
  rw [h2.2.2.2, h1]
  simp

theorem Accepts.refl (b : BufWriter (List UInt8)) (h : b.Sound) : Accepts (b, none) b [] :=
  ⟨rfl, h.1, h.2, by simp⟩

theorem escapeQuotes_append_plain (seg t : List UInt8)
    (h : ∀ x ∈ seg, (!isSpecial x) = true) :
    escapeQuotes (seg ++ t) = seg ++ escapeQuotes t := by
  induction seg with
  | nil => rfl
  | cons x seg ih =>
    have hx : x ≠ 34 := by
      have := h x (List.mem_cons_self _ _)
      intro e
      subst e
      simp [isSpecial] at this
    have ih' := ih (fun y hy => h y (List.mem_cons_of_mem _ hy))
    show escapeQuotes (x :: (seg ++ t)) = x :: (seg ++ escapeQuotes t)
    rw [escapeQuotes, if_neg hx, ih']

theorem writeQuotedLoop_mem (fuel : Nat) (b : BufWriter (List UInt8)) (field : GoString)
    (h : b.Sound) (hfuel : field.length ≤ fuel) :
    Accepts (writeQuotedLoop memSink fuel b field) b (escapeQuotes field) := by
  induction fuel generalizing b field with
  | zero =>
    have : field = [] := List.length_eq_zero.1 (Nat.le_zero.1 hfuel)
    subst this
    exact Accepts.refl b h
  | succ fuel ih =>
    simp only [writeQuotedLoop]
    by_cases hpos : field.length > 0
    · rw [if_pos hpos]
      have hsplit := List.takeWhile_append_dropWhile (fun c => !isSpecial c) field
      have hplain : ∀ x ∈ field.takeWhile (fun c => !isSpecial c), (!isSpecial x) = true :=
        fun x hx => @List.mem_takeWhile_imp _ (fun c => !isSpecial c) _ _ hx
      have h1 := writeString_mem b (field.takeWhile (fun c => !isSpecial c)) h
      rw [h1.eq_pair]
      simp only
      rcases hd : field.dropWhile (fun c => !isSpecial c) with _ | ⟨c, field2⟩
      · simp only
        rw [hd, List.append_nil] at hsplit
        have hesc : escapeQuotes field = field := by
          have := escapeQuotes_append_plain _ [] hplain
          rw [List.append_nil, hsplit] at this
          simpa [escapeQuotes] using this
        rw [hesc, ← h1.eq_pair]
        rw [hsplit] at h1 ⊢
        exact h1
      · simp only
        rw [hd] at hsplit
        have hlen : field2.length ≤ fuel := by
          have := congrArg List.length hsplit
          simp only [List.length_append, List.length_cons] at this
          omega
        have hesc : escapeQuotes field
            = field.takeWhile (fun c => !isSpecial c)
              ++ ((if c = 34 then [34, 34] else [c]) ++ escapeQuotes field2) := by
          have := escapeQuotes_append_plain _ (c :: field2) hplain
          rw [hsplit] at this
          rw [this]
          by_cases hc : c = 34 <;> simp [escapeQuotes, hc]
        rw [hesc]
        refine Accepts.trans h1.2.2.2 ?_
        by_cases hc : c = 34
        · rw [if_pos hc, if_pos hc]
          have h2 := writeString_mem _ [34, 34] h1.sound
          rw [h2.eq_pair]
          simp only
          exact Accepts.trans h2.2.2.2 (ih _ field2 h2.sound hlen)
        · rw [if_neg hc, if_neg hc]
          have h2 := writeByte_mem _ c h1.sound
          rw [h2.eq_pair]
          simp only
          exact Accepts.trans h2.2.2.2 (ih _ field2 h2.sound hlen)
    · rw [if_neg hpos]
      have : field = [] := List.length_eq_zero.1 (by omega)
      subst this
      exact Accepts.refl b h

theorem writeField_mem (b : BufWriter (List UInt8)) (field : GoString) (h : b.Sound) :
    Accepts (writeField memSink b field) b (encodeField field) := by
  unfold writeField encodeField
  by_cases hq : fieldNeedsQuotes field = true
  · simp only [hq, Bool.not_true, Bool.false_eq_true, if_false, if_true]
    have h1 := writeByte_mem b 34 h
    rw [h1.eq_pair]
    simp only
    have h2 := writeQuotedLoop_mem field.length _ field h1.sound (le_refl _)
    rw [h2.eq_pair]
    simp only
    have h3 := writeByte_mem _ 34 h2.sound
    have := Accepts.trans h1.2.2.2 (Accepts.trans h2.2.2.2 h3)
    simpa using this
  · simp only [Bool.not_eq_true] at hq
    simp only [hq, Bool.not_false, if_true, Bool.false_eq_true, if_false]
    exact writeString_mem b field h

theorem writeFields_succ_mem (n : Nat) (b : BufWriter (List UInt8)) (fields : List GoString)
    (h : b.Sound) :
    Accepts (writeFields memSink (n + 1) b fields) b (encodeTail fields) := by
  induction fields generalizing b n with
  | nil => exact Accepts.refl b h
  | cons f rest ih =>
    simp only [writeFields, Nat.succ_pos, if_true, gt_iff_lt]
    have h1 := writeByte_mem b 44 h
    rw [h1.eq_pair]
    simp only
    have h2 := writeField_mem _ f h1.sound
    rw [h2.eq_pair]
    simp only
    have := Accepts.trans h1.2.2.2 (Accepts.trans h2.2.2.2 (ih (n + 1) _ h2.sound))
    simpa [encodeTail] using this

theorem csvWrite_mem (out : CsvWriter (List UInt8)) (record : List GoString) (h : out.w.Sound) :
    (CsvWriter.Write memSink out record).2 = none ∧
    (CsvWriter.Write memSink out record).1.w.Sound ∧
    (CsvWriter.Write memSink out record).1.w.wr ++ (CsvWriter.Write memSink out record).1.w.buf
      = out.w.wr ++ out.w.buf ++ encodeRecord record := by
  have key : Accepts (writeFields memSink 0 out.w record) out.w
      (match record with
        | [] => []
        | f :: rest => encodeField f ++ encodeTail rest) := by
    cases record with
    | nil => exact Accepts.refl _ h
    | cons f rest =>
      simp only [writeFields, gt_iff_lt, lt_self_iff_false, if_false]
      have h2 := writeField_mem _ f h
      rw [h2.eq_pair]
      simp only
      exact Accepts.trans h2.2.2.2 (writeFields_succ_mem 0 _ rest h2.sound)
  unfold CsvWriter.Write
  rw [key.eq_pair]
  simp only
  have h3 := writeByte_mem _ 10 key.sound
  have := Accepts.trans key.2.2.2 h3
  refine ⟨this.1, this.sound, ?_⟩
  rw [this.2.2.2]
  cases record <;> simp [encodeRecord]

theorem reportCSVLoop_mem {τ : Type} (env : Env (List UInt8) τ) (issues : List Issue)
    (out : CsvWriter (List UInt8)) (handed : List (List GoString)) (h : out.w.Sound) :
    (reportCSVLoop env memSink issues out handed).2.2 = none ∧
    (reportCSVLoop env memSink issues out handed).1.w.Sound ∧
    (reportCSVLoop env memSink issues out handed).1.w.wr
        ++ (reportCSVLoop env memSink issues out handed).1.w.buf
      = out.w.wr ++ out.w.buf ++ encodeAll (issues.map (csvRecord env)) := by
  induction issues generalizing out handed with
  | nil => exact ⟨rfl, h, by simp [reportCSVLoop, encodeAll]⟩
  | cons issue rest ih =>
    obtain ⟨h1, h2, h3⟩ := csvWrite_mem out (csvRecord env issue) h
    simp only [reportCSVLoop]
    rcases hw : CsvWriter.Write memSink out (csvRecord env issue) with ⟨out1, r⟩
    rw [hw] at h1 h2 h3
    simp only at h1 h2 h3
    subst h1
    simp only
    obtain ⟨i1, i2, i3⟩ := ih out1 (handed ++ [csvRecord env issue]) h2
    refine ⟨i1, i2, ?_⟩
    rw [i3, h3]
    simp [encodeAll]

theorem reportCSV_mem {τ : Type} (env : Env (List UInt8) τ) (data : Analyzer) :
    (reportCSV env memSink [] data).2.2 = none ∧
    CsvWriter.Error (reportCSV env memSink [] data).1 = none ∧
    (reportCSV env memSink [] data).1.w.wr = encodeAll (data.Issues.map (csvRecord env)) := by
  obtain ⟨h1, h2, h3⟩ := reportCSVLoop_mem env data.Issues (NewWriter []) []
    ⟨rfl, by simp [NewWriter, defaultBufSize]⟩
  unfold reportCSV
  rcases hl : reportCSVLoop env memSink data.Issues (NewWriter []) [] with ⟨out, handed, err⟩
  rw [hl] at h1 h2 h3
  simp only at h1 h2 h3
  subst h1
  obtain ⟨⟨e, buf, wr⟩⟩ := out
  obtain ⟨he, hb⟩ := h2
  simp only at he hb h3
  subst he
  simp only [CsvWriter.Flush, flush_mem, CsvWriter.Error, true_and]
  rw [h3]
  simp [NewWriter]

end Gas

namespace Gas

/-! ## The CSV reader on written records -/

theorem takeLine_append_dropLine (s : List UInt8) : takeLine s ++ dropLine s = s := by
  induction s with
  | nil => rfl
  | cons c s ih =>
    by_cases h : c = 10
    · simp [takeLine, dropLine, h]
    · simp [takeLine, dropLine, h, ih]

theorem takeLine_append (pre s : List UInt8) (h : 10 ∉ pre) :
    takeLine (pre ++ s) = pre ++ takeLine s := by
  induction pre with
  | nil => rfl
  | cons c pre ih =>
    have hc : c ≠ 10 := fun e => h (by simp [e])
    have hp : 10 ∉ pre := fun e => h (List.mem_cons_of_mem _ e)
    simp [takeLine, hc, ih hp]

theorem dropLine_append (pre s : List UInt8) (h : 10 ∉ pre) :
    dropLine (pre ++ s) = dropLine s := by
  induction pre with
  | nil => rfl
  | cons c pre ih =>
    have hc : c ≠ 10 := fun e => h (by simp [e])
    have hp : 10 ∉ pre := fun e => h (List.mem_cons_of_mem _ e)
    simp [dropLine, hc, ih hp]

theorem takeLine_ne_nil (s : List UInt8) (h : s ≠ []) : takeLine s ≠ [] := by
  cases s with
  | nil => exact absurd rfl h
  | cons c s => by_cases hc : c = 10 <;> simp [takeLine, hc]

theorem takeLine_getLast (s : List UInt8) (h : 10 ∈ s) : (takeLine s).getLast? = some 10 := by
  induction s with
  | nil => cases h
  | cons c s ih =>
    by_cases hc : c = 10
    · simp [takeLine, hc]
    · have hs : 10 ∈ s := by
        rcases List.mem_cons.1 h with e | e
        · exact absurd e.symm hc
        · exact e
      have hne : takeLine s ≠ [] := takeLine_ne_nil s (List.ne_nil_of_mem hs)
      simp only [takeLine, hc, if_false]
      rw [List.getLast?_cons, ih hs]
      rfl

theorem hasCRLF_tail {c : UInt8} {s : List UInt8} (h : hasCRLF (c :: s) = false) :
    hasCRLF s = false := by
  simp only [hasCRLF, Bool.or_eq_false_iff] at h
  exact h.2

theorem hasCRLF_suffix (pre s : List UInt8) (h : hasCRLF (pre ++ s) = false) :
    hasCRLF s = false := by
  induction pre with
  | nil => exact h
  | cons c pre ih => exact ih (hasCRLF_tail h)

theorem foldLineEnd_of_noCRLF (l : List UInt8) (h : hasCRLF l = false) : foldLineEnd l = l := by
  induction l with
  | nil => rfl
  | cons c l ih =>
    cases l with
    | nil => rfl
    | cons d s =>
      have h2 := hasCRLF_tail h
      simp only [hasCRLF, List.head?_cons, Bool.or_eq_false_iff, Bool.and_eq_false_imp,
        decide_eq_true_eq, decide_eq_false_iff_not, Option.some.injEq] at h
      have hcd : ¬ (c = 13 ∧ d = 10 ∧ s = []) := fun e => h.1 e.1 e.2.1
      simp only [foldLineEnd, hcd, if_false]
      rw [ih h2]

theorem hasCRLF_takeLine (s : List UInt8) (h : hasCRLF s = false) :
    hasCRLF (takeLine s) = false := by
  induction s with
  | nil => rfl
  | cons c s ih =>
    by_cases hc : c = 10
    · simp [takeLine, hc, hasCRLF]
    · have h2 := hasCRLF_tail h
      simp only [takeLine, hc, if_false]
      simp only [hasCRLF, Bool.or_eq_false_iff, Bool.and_eq_false_imp, decide_eq_true_eq,
        decide_eq_false_iff_not] at h ⊢
      refine ⟨?_, ih h2⟩
      intro h13 hh
      apply h.1 h13
      cases s with
      | nil => simp [takeLine] at hh
      | cons d s =>
        by_cases hd : d = 10
        · simp [hd]
        · simp [takeLine, hd] at hh

theorem readLine_eq (s : List UInt8) (hlf : 10 ∈ s) (h : hasCRLF s = false) :
    readLine s = (takeLine s, dropLine s, false) := by
  have hl := takeLine_getLast s hlf
  unfold readLine
  simp only [hl, ne_eq, not_true_eq_false, decide_False, Bool.false_eq_true, and_false, if_false]
  rw [foldLineEnd_of_noCRLF _ (hasCRLF_takeLine s h)]

theorem readLine_nil : readLine [] = ([], [], true) := by decide

theorem indexByte_append (c : UInt8) (pre post : List UInt8) (h : c ∉ pre) :
    indexByte c (pre ++ c :: post) = some pre.length := by
  induction pre with
  | nil => simp [indexByte]
  | cons x pre ih =>
    have hx : x ≠ c := fun e => h (by simp [e])
    have hp : c ∉ pre := fun e => h (List.mem_cons_of_mem _ e)
    simp [indexByte, hx, ih hp]

theorem indexByte_none (c : UInt8) (l : List UInt8) (h : c ∉ l) : indexByte c l = none := by
  induction l with
  | nil => rfl
  | cons x l ih =>
    have hx : x ≠ c := fun e => h (by simp [e])
    have hp : c ∉ l := fun e => h (List.mem_cons_of_mem _ e)
    simp [indexByte, hx, ih hp]

/-- A byte of the field that is not a quote moves from the line to the
buffer without a round of the loop. -/
theorem quotedLoop_skip (fuel : Nat) (x : UInt8) (line rest : List UInt8) (buf : GoString)
    (fields : List GoString) (hx : x ≠ 34) (hl : line ≠ []) :
    quotedLoop fuel (x :: line) rest buf fields = quotedLoop fuel line rest (buf ++ [x]) fields := by
  cases fuel with
  | zero => simp [quotedLoop]
  | succ fuel =>
    have hpos : line.length > 0 := List.length_pos.2 hl
    rw [quotedLoop, quotedLoop]
    simp only [indexByte, hx, if_false]
    cases hi : indexByte 34 line with
    | none => simp [hpos]
    | some i => simp

theorem takeLine_cons_ne (x : UInt8) (s : List UInt8) (h : x ≠ 10) :
    takeLine (x :: s) = x :: takeLine s := by
  simp [takeLine, h]

theorem dropLine_cons_ne (x : UInt8) (s : List UInt8) (h : x ≠ 10) :
    dropLine (x :: s) = dropLine s := by
  simp [dropLine, h]

/-- The loop over a quoted field reads the escaped content `c` into the
buffer and arrives at the closing quote. -/
theorem quotedLoop_content (c : GoString) (A : List UInt8) (fields : List GoString)
    (R : Except ReadError (List GoString × List UInt8)) (hA : 10 ∈ A) :
    ∀ (buf : GoString) (fuel : Nat),
      hasCRLF (escapeQuotes c ++ 34 :: A) = false →
      (escapeQuotes c ++ 34 :: A).length + 1 ≤ fuel →
      (∀ fuel', (34 :: A).length + 1 ≤ fuel' →
        quotedLoop fuel' (takeLine (34 :: A)) (dropLine (34 :: A)) (buf ++ c) fields = R) →
      quotedLoop fuel (takeLine (escapeQuotes c ++ 34 :: A))
        (dropLine (escapeQuotes c ++ 34 :: A)) buf fields = R := by
  induction c with
  | nil =>
    intro buf fuel _ hfuel hK
    simpa [escapeQuotes] using hK fuel (by simpa [escapeQuotes] using hfuel)
  | cons x c ih =>
    intro buf fuel hcr hfuel hK
    have hK' : ∀ fuel', (34 :: A).length + 1 ≤ fuel' →
        quotedLoop fuel' (takeLine (34 :: A)) (dropLine (34 :: A)) ((buf ++ [x]) ++ c) fields
          = R := by
      intro fuel' hf
      rw [List.append_assoc]
      exact hK fuel' hf
    have hne : escapeQuotes c ++ 34 :: A ≠ [] := by simp
    by_cases hq : x = 34
    · subst hq
      simp only [escapeQuotes, if_true, List.cons_append] at hcr hfuel ⊢
      obtain ⟨k, rfl⟩ : ∃ k, fuel = k + 1 := ⟨fuel - 1, by
        simp only [List.length_cons] at hfuel
        omega⟩
      rw [takeLine_cons_ne _ _ (by decide), takeLine_cons_ne _ _ (by decide),
        dropLine_cons_ne _ _ (by decide), dropLine_cons_ne _ _ (by decide), quotedLoop]
      simp only [indexByte, if_true, List.drop_succ_cons, List.drop_zero, List.head?_cons,
        List.take_zero, List.append_nil]
      exact ih (buf ++ [34]) k (hasCRLF_tail (hasCRLF_tail hcr)) (by
        simp only [List.length_cons] at hfuel
        omega) hK'
    · simp only [escapeQuotes, hq, if_false, List.cons_append] at hcr hfuel ⊢
      by_cases hlf : x = 10
      · subst hlf
        obtain ⟨k, rfl⟩ : ∃ k, fuel = k + 1 := ⟨fuel - 1, by
          simp only [List.length_cons] at hfuel
          omega⟩
        have hmem : (10 : UInt8) ∈ escapeQuotes c ++ 34 :: A := by simp [hA]
        rw [show takeLine (10 :: (escapeQuotes c ++ 34 :: A)) = [10] by simp [takeLine],
          show dropLine (10 :: (escapeQuotes c ++ 34 :: A)) = escapeQuotes c ++ 34 :: A by
            simp [dropLine], quotedLoop]
        simp only [indexByte, show ((10 : UInt8) = 34) = False by decide, if_false,
          Option.map_none', List.length_singleton, Nat.lt_one_iff, pos_of_gt, gt_iff_lt,
          zero_lt_one, if_true]
        rw [readLine_eq _ hmem (hasCRLF_tail hcr)]
        exact ih (buf ++ [10]) k (hasCRLF_tail hcr) (by
          simp only [List.length_cons] at hfuel
          omega) hK'
      · rw [takeLine_cons_ne _ _ hlf, dropLine_cons_ne _ _ hlf,
          quotedLoop_skip _ _ _ _ _ _ hq (takeLine_ne_nil _ hne)]
        exact ih (buf ++ [x]) fuel (hasCRLF_tail hcr) (by
          simp only [List.length_cons] at hfuel
          omega) hK'

theorem quotedLoop_close_end (k : Nat) (T : List UInt8) (buf : GoString)
    (fields : List GoString) :
    quotedLoop (k + 1) (takeLine (34 :: 10 :: T)) (dropLine (34 :: 10 :: T)) buf fields
      = .ok (fields ++ [buf], T) := by
  rw [show takeLine (34 :: 10 :: T) = [34, 10] by simp [takeLine],
    show dropLine (34 :: 10 :: T) = T by simp [dropLine], quotedLoop]
  simp [indexByte, lengthNL]

theorem quotedLoop_close_comma (k : Nat) (A : List UInt8) (buf : GoString)
    (fields : List GoString) :
    quotedLoop (k + 1) (takeLine (34 :: 44 :: A)) (dropLine (34 :: 44 :: A)) buf fields
      = parseFields k (takeLine A) (dropLine A) (fields ++ [buf]) := by
  rw [takeLine_cons_ne _ _ (by decide), takeLine_cons_ne _ _ (by decide),
    dropLine_cons_ne _ _ (by decide), dropLine_cons_ne _ _ (by decide), quotedLoop]
  simp [indexByte]

theorem parseFields_open (k : Nat) (S : List UInt8) (fields : List GoString) :
    parseFields (k + 1) (takeLine (34 :: S)) (dropLine (34 :: S)) fields
      = quotedLoop k (takeLine S) (dropLine S) [] fields := by
  rw [takeLine_cons_ne _ _ (by decide), dropLine_cons_ne _ _ (by decide), parseFields]
  simp

/-- A field that `fieldNeedsQuotes` rejects holds no line feed, carriage
return, quote or comma. -/
theorem plain_of_not_fieldNeedsQuotes (f : GoString) (h : fieldNeedsQuotes f = false) :
    ∀ x ∈ f, x ≠ 10 ∧ x ≠ 13 ∧ x ≠ 34 ∧ x ≠ 44 := by
  unfold fieldNeedsQuotes at h
  by_cases h0 : f = []
  · subst h0
    intro x hx
    cases hx
  · rw [if_neg h0] at h
    by_cases h1 : f = goStr "\\."
    · rw [if_pos h1] at h
      cases h
    · rw [if_neg h1] at h
      by_cases h2 : f.any (fun c => decide (c = 10 ∨ c = 13 ∨ c = 34 ∨ c = 44)) = true
      · rw [if_pos h2] at h
        cases h
      · simp only [Bool.not_eq_true] at h2
        rw [List.any_eq_false] at h2
        intro x hx
        have := h2 x hx
        simp only [decide_eq_true_eq, not_or] at this
        exact this

theorem parseFields_plain_comma (k : Nat) (f : GoString) (A : List UInt8)
    (fields : List GoString) (hf : ∀ x ∈ f, x ≠ 10 ∧ x ≠ 13 ∧ x ≠ 34 ∧ x ≠ 44) :
    parseFields (k + 1) (takeLine (f ++ 44 :: A)) (dropLine (f ++ 44 :: A)) fields
      = parseFields k (takeLine A) (dropLine A) (fields ++ [f]) := by
  have h10 : (10 : UInt8) ∉ f := fun e => (hf 10 e).1 rfl
  have h34 : (34 : UInt8) ∉ f := fun e => (hf 34 e).2.2.1 rfl
  have h44 : (44 : UInt8) ∉ f := fun e => (hf 44 e).2.2.2 rfl
  rw [takeLine_append _ _ h10, dropLine_append _ _ h10, takeLine_cons_ne _ _ (by decide),
    dropLine_cons_ne _ _ (by decide), parseFields]
  have hhead : (f ++ 44 :: takeLine A).head? ≠ some 34 := by
    cases f with
    | nil => simp
    | cons x f =>
      have := (hf x (List.mem_cons_self _ _)).2.2.1
      simpa using this
  rw [if_pos hhead, indexByte_append _ _ _ h44]
  simp only [List.take_left' rfl, h34, if_false]
  have hdrop : List.drop (f.length + 1) (f ++ 44 :: takeLine A) = takeLine A := by
    have := @List.drop_left' _ (f ++ [44]) (takeLine A) (f.length + 1) (by simp)
    rw [List.append_assoc] at this
    exact this
  rw [hdrop]

theorem parseFields_plain_end (k : Nat) (f : GoString) (T : List UInt8)
    (fields : List GoString) (hf : ∀ x ∈ f, x ≠ 10 ∧ x ≠ 13 ∧ x ≠ 34 ∧ x ≠ 44) :
    parseFields (k + 1) (takeLine (f ++ 10 :: T)) (dropLine (f ++ 10 :: T)) fields
      = .ok (fields ++ [f], T) := by
  have h10 : (10 : UInt8) ∉ f := fun e => (hf 10 e).1 rfl
  have h34 : (34 : UInt8) ∉ f := fun e => (hf 34 e).2.2.1 rfl
  have h44 : (44 : UInt8) ∉ f := fun e => (hf 44 e).2.2.2 rfl
  rw [takeLine_append _ _ h10, dropLine_append _ _ h10,
    show takeLine (10 :: T) = [10] by simp [takeLine],
    show dropLine (10 :: T) = T by simp [dropLine], parseFields]
  have hhead : (f ++ [10]).head? ≠ some 34 := by
    cases f with
    | nil => simp
    | cons x f =>
      have := (hf x (List.mem_cons_self _ _)).2.2.1
      simpa using this
  have hidx : indexByte 44 (f ++ [10]) = none :=
    indexByte_none _ _ (by
      intro e
      rcases List.mem_append.1 e with e | e
      · exact h44 e
      · simp at e)
  have hnl : lengthNL (f ++ [10]) = 1 := by simp [lengthNL]
  rw [if_pos hhead, hidx]
  simp only [hnl, List.length_append, List.length_singleton, Nat.add_sub_cancel,
    List.take_left' rfl, h34, if_false]

theorem encodeField_quoted (g : GoString) (h : fieldNeedsQuotes g = true) (X : List UInt8) :
    encodeField g ++ X = 34 :: (escapeQuotes g ++ 34 :: X) := by
  simp [encodeField, h]

theorem encodeField_plain (g : GoString) (h : fieldNeedsQuotes g = false) :
    encodeField g = g := by
  simp [encodeField, h]

/-- The fields of one record are read back from the bytes written for them:
the first field `g`, then the fields `rest`, each after a comma, then the
line feed. -/
theorem parseFields_record (rest : List GoString) :
    ∀ (g : GoString) (T : List UInt8) (fields : List GoString) (fuel : Nat),
      hasCRLF (encodeField g ++ encodeTail rest ++ 10 :: T) = false →
      (encodeField g ++ encodeTail rest ++ 10 :: T).length + 1 ≤ fuel →
      parseFields fuel (takeLine (encodeField g ++ encodeTail rest ++ 10 :: T))
          (dropLine (encodeField g ++ encodeTail rest ++ 10 :: T)) fields
        = .ok (fields ++ g :: rest, T) := by
  induction rest with
  | nil =>
    intro g T fields fuel hcr hfuel
    have htail : encodeField g ++ encodeTail [] ++ 10 :: T = encodeField g ++ 10 :: T := by
      simp [encodeTail]
    rw [htail] at hcr hfuel ⊢
    obtain ⟨k, rfl⟩ : ∃ k, fuel = k + 1 := ⟨fuel - 1, by omega⟩
    by_cases hq : fieldNeedsQuotes g = true
    · rw [encodeField_quoted g hq] at hcr hfuel ⊢
      rw [parseFields_open]
      refine quotedLoop_content g (10 :: T) fields _ (by simp) [] k (hasCRLF_tail hcr)
        (by simp only [List.length_cons] at hfuel ⊢; omega) ?_
      intro fuel' hf'
      obtain ⟨k', rfl⟩ : ∃ k', fuel' = k' + 1 := ⟨fuel' - 1, by
        simp only [List.length_cons] at hf'
        omega⟩
      rw [quotedLoop_close_end]
      simp
    · simp only [Bool.not_eq_true] at hq
      rw [encodeField_plain g hq] at hcr hfuel ⊢
      exact parseFields_plain_end k g T fields (plain_of_not_fieldNeedsQuotes g hq)
  | cons g' rest ih =>
    intro g T fields fuel hcr hfuel
    have htail : encodeField g ++ encodeTail (g' :: rest) ++ 10 :: T
        = encodeField g ++ 44 :: (encodeField g' ++ encodeTail rest ++ 10 :: T) := by
      simp [encodeTail]
    rw [htail] at hcr hfuel ⊢
    obtain ⟨k, rfl⟩ : ∃ k, fuel = k + 1 := ⟨fuel - 1, by omega⟩
    have hcr' : hasCRLF (encodeField g' ++ encodeTail rest ++ 10 :: T) = false :=
      hasCRLF_tail (hasCRLF_suffix _ _ hcr)
    have ihX := fun fields fuel => ih g' T fields fuel hcr'
    have hX : (10 : UInt8) ∈ encodeField g' ++ encodeTail rest ++ 10 :: T := by simp
    generalize encodeField g' ++ encodeTail rest ++ 10 :: T = X at hcr hfuel ihX hX ⊢
    by_cases hq : fieldNeedsQuotes g = true
    · rw [encodeField_quoted g hq] at hcr hfuel ⊢
      rw [parseFields_open]
      refine quotedLoop_content g (44 :: X) fields _ (List.mem_cons_of_mem _ hX) [] k
        (hasCRLF_tail hcr) (by simp only [List.length_cons] at hfuel ⊢; omega) ?_
      intro fuel' hf'
      obtain ⟨k', rfl⟩ : ∃ k', fuel' = k' + 1 := ⟨fuel' - 1, by
        simp only [List.length_cons] at hf'
        omega⟩
      rw [quotedLoop_close_comma]
      have := ihX (fields ++ [[] ++ g]) k' (by
        simp only [List.length_cons] at hf' ⊢
        omega)
      simpa using this
    · simp only [Bool.not_eq_true] at hq
      rw [encodeField_plain g hq] at hcr hfuel ⊢
      rw [parseFields_plain_comma k g _ fields (plain_of_not_fieldNeedsQuotes g hq)]
      have := ihX (fields ++ [g]) k (by
        simp only [List.length_cons, List.length_append] at hfuel ⊢
        omega)
      simpa using this

theorem encodeRecord_head (g : GoString) (rest : List GoString) (X : List UInt8)
    (h : g ≠ [] ∨ rest ≠ []) : (encodeField g ++ encodeTail rest ++ X).head? ≠ some 10 := by
  by_cases hq : fieldNeedsQuotes g = true
  · rw [List.append_assoc, encodeField_quoted g hq]
    simp
  · simp only [Bool.not_eq_true] at hq
    rw [encodeField_plain g hq]
    cases g with
    | cons x g =>
      have := (plain_of_not_fieldNeedsQuotes _ hq x (List.mem_cons_self _ _)).1
      simpa using this
    | nil =>
      cases rest with
      | nil => simp at h
      | cons g' rest => simp [encodeTail]

/-- The method `readRecord` reads one written record back and stops after
its line feed. -/
theorem readRecord_record (g : GoString) (rest : List GoString) (T : List UInt8)
    (fieldsPerRecord : Nat) (h : g ≠ [] ∨ rest ≠ [])
    (hfpr : fieldsPerRecord = 0 ∨ fieldsPerRecord = (g :: rest).length)
    (hcr : hasCRLF (encodeRecord (g :: rest) ++ T) = false) :
    readRecord (encodeRecord (g :: rest) ++ T) fieldsPerRecord
      = .ok (g :: rest, T, (g :: rest).length) := by
  have hS : encodeRecord (g :: rest) ++ T = encodeField g ++ encodeTail rest ++ 10 :: T := by
    simp [encodeRecord]
  rw [hS] at hcr ⊢
  have hhead := encodeRecord_head g rest (10 :: T) h
  have hmem : (10 : UInt8) ∈ encodeField g ++ encodeTail rest ++ 10 :: T := by simp
  have hrec := parseFields_record rest g T [] _ hcr (le_refl _)
  generalize encodeField g ++ encodeTail rest ++ 10 :: T = S at hcr hhead hmem hrec ⊢
  have hline : (takeLine S).length ≠ lengthNL (takeLine S) := by
    cases S with
    | nil => cases hmem
    | cons x S =>
      have hx : x ≠ 10 := by simpa using hhead
      have hS' : (10 : UInt8) ∈ S := by
        rcases List.mem_cons.1 hmem with e | e
        · exact absurd e.symm hx
        · exact e
      have hne := takeLine_ne_nil S (List.ne_nil_of_mem hS')
      have hpos := List.length_pos.2 hne
      rw [takeLine_cons_ne _ _ hx]
      simp only [lengthNL, List.length_cons]
      split <;> omega
  unfold readRecord
  rw [nextLine, readLine_eq S hmem hcr]
  simp only [hline, and_false, if_false, Bool.false_eq_true]
  have hlen : (takeLine S).length + (dropLine S).length + 1 = S.length + 1 := by
    rw [← List.length_append, takeLine_append_dropLine]
  rw [hlen, hrec]
  simp only [List.nil_append]
  rcases hfpr with h0 | hn
  · subst h0
    simp
  · rw [hn]
    simp

theorem encodeAll_cons (r : List GoString) (records : List (List GoString)) :
    encodeAll (r :: records) = encodeRecord r ++ encodeAll records := by
  simp [encodeAll]

theorem encodeRecord_length_pos (r : List GoString) : 0 < (encodeRecord r).length := by
  cases r <;> simp [encodeRecord]

/-- The loop of `ReadAll` reads written records back, provided each has the
same number of fields and is more than a single empty field. -/
theorem readAllLoop_encodeAll (n : Nat) (records : List (List GoString)) :
    ∀ (fuel fieldsPerRecord : Nat) (acc : List (List GoString)),
      (∀ r ∈ records, r.length = n ∧ r ≠ [] ∧ r ≠ [[]]) →
      fieldsPerRecord = 0 ∨ fieldsPerRecord = n →
      hasCRLF (encodeAll records) = false →
      (encodeAll records).length + 1 ≤ fuel →
      readAllLoop fuel (encodeAll records) fieldsPerRecord acc = .ok (acc ++ records) := by
  induction records with
  | nil =>
    intro fuel fieldsPerRecord acc _ _ _ hfuel
    obtain ⟨k, rfl⟩ : ∃ k, fuel = k + 1 := ⟨fuel - 1, by omega⟩
    simp [encodeAll, readAllLoop, readRecord, nextLine, readLine_nil]
  | cons r records ih =>
    intro fuel fieldsPerRecord acc hrs hfpr hcr hfuel
    obtain ⟨hn, hne, hne1⟩ := hrs r (List.mem_cons_self _ _)
    rw [encodeAll_cons] at hcr hfuel ⊢
    obtain ⟨k, rfl⟩ : ∃ k, fuel = k + 1 := ⟨fuel - 1, by omega⟩
    cases r with
    | nil => exact absurd rfl hne
    | cons g rest =>
      have hg : g ≠ [] ∨ rest ≠ [] := by
        by_cases h1 : g = []
        · right
          intro h2
          exact hne1 (by rw [h1, h2])
        · exact Or.inl h1
      rw [readAllLoop, readRecord_record g rest _ fieldsPerRecord hg (by rw [hn]; exact hfpr) hcr]
      simp only
      have := ih k (g :: rest).length (acc ++ [g :: rest])
        (fun r hr => hrs r (List.mem_cons_of_mem _ hr)) (Or.inr hn)
        (hasCRLF_suffix _ _ hcr) (by
          have := encodeRecord_length_pos (g :: rest)
          simp only [List.length_append] at hfuel
          omega)
      simpa using this

/-! Where carriage return and line feed can meet in the written bytes -/

theorem hasCRLF_append (a b : List UInt8) :
    hasCRLF (a ++ b)
      = (hasCRLF a || hasCRLF b || (decide (a.getLast? = some 13) && decide (b.head? = some 10))) := by
  induction a with
  | nil => simp [hasCRLF]
  | cons x a ih =>
    cases a with
    | nil =>
      simp only [List.singleton_append, hasCRLF, List.head?_nil, List.getLast?_singleton,
        Option.some.injEq]
      by_cases hx : x = 13 <;> by_cases hb : b.head? = some 10 <;> simp [hx, hb]
    | cons y a =>
      have h1 : hasCRLF (x :: (y :: a ++ b))
          = ((decide (x = 13) && decide (some y = some 10)) || hasCRLF (y :: a ++ b)) := rfl
      have h2 : hasCRLF (x :: y :: a)
          = ((decide (x = 13) && decide (some y = some 10)) || hasCRLF (y :: a)) := rfl
      rw [List.cons_append, h1, ih, h2, List.getLast?_cons_cons]
      simp only [Bool.or_assoc]

theorem hasCRLF_of_no_CR (s : List UInt8) (h : (13 : UInt8) ∉ s) : hasCRLF s = false := by
  induction s with
  | nil => rfl
  | cons x s ih =>
    have hx : x ≠ 13 := fun e => h (by simp [e])
    simp [hasCRLF, hx, ih (fun e => h (List.mem_cons_of_mem _ e))]

theorem escapeQuotes_head (f : GoString) : (escapeQuotes f).head? = f.head? := by
  cases f with
  | nil => rfl
  | cons x f => by_cases hx : x = 34 <;> simp [escapeQuotes, hx]

theorem hasCRLF_escapeQuotes (f : GoString) : hasCRLF (escapeQuotes f) = hasCRLF f := by
  induction f with
  | nil => rfl
  | cons x f ih =>
    by_cases hx : x = 34
    · subst hx
      simp [escapeQuotes, hasCRLF, ih]
    · simp [escapeQuotes, hx, hasCRLF, ih, escapeQuotes_head]

theorem Clean.append {a b : List UInt8} (ha : Clean a) (hb : Clean b) : Clean (a ++ b) := by
  refine ⟨?_, ?_⟩
  · rw [hasCRLF_append, ha.1, hb.1]
    simp [ha.2]
  · rw [List.getLast?_append]
    cases hbl : b.getLast? with
    | none => simpa using ha.2
    | some y =>
      have := hb.2
      rw [hbl] at this
      simpa using this

theorem clean_encodeField (f : GoString) (h : hasCRLF f = false) : Clean (encodeField f) := by
  by_cases hq : fieldNeedsQuotes f = true
  · have henc : encodeField f = ([34] ++ escapeQuotes f) ++ [34] := by
      simp [encodeField, hq]
    rw [henc]
    refine ⟨?_, ?_⟩
    · rw [hasCRLF_append, hasCRLF_append, hasCRLF_escapeQuotes, h]
      simp [hasCRLF]
    · rw [List.getLast?_concat]
      decide
  · simp only [Bool.not_eq_true] at hq
    rw [encodeField_plain f hq]
    have hp := plain_of_not_fieldNeedsQuotes f hq
    have h13 : (13 : UInt8) ∉ f := fun e => (hp 13 e).2.1 rfl
    refine ⟨h, ?_⟩
    intro e
    exact h13 (List.mem_of_mem_getLast? e)

theorem clean_singleton (c : UInt8) (h : c ≠ 13) : Clean [c] := by
  refine ⟨by simp [hasCRLF], by simpa using h⟩

theorem clean_encodeTail (fields : List GoString) (h : ∀ f ∈ fields, hasCRLF f = false) :
    Clean (encodeTail fields) := by
  induction fields with
  | nil => exact ⟨rfl, by simp [encodeTail]⟩
  | cons f fields ih =>
    have : encodeTail (f :: fields) = [44] ++ (encodeField f ++ encodeTail fields) := by
      simp [encodeTail]
    rw [this]
    exact (clean_singleton 44 (by decide)).append
      ((clean_encodeField f (h f (List.mem_cons_self _ _))).append
        (ih (fun g hg => h g (List.mem_cons_of_mem _ hg))))

theorem clean_encodeRecord (r : List GoString) (h : ∀ f ∈ r, hasCRLF f = false) :
    Clean (encodeRecord r) := by
  cases r with
  | nil => exact clean_singleton 10 (by decide)
  | cons g rest =>
    exact ((clean_encodeField g (h g (List.mem_cons_self _ _))).append
      (clean_encodeTail rest (fun f hf => h f (List.mem_cons_of_mem _ hf)))).append
      (clean_singleton 10 (by decide))

theorem clean_encodeAll (records : List (List GoString))
    (h : ∀ r ∈ records, ∀ f ∈ r, hasCRLF f = false) : Clean (encodeAll records) := by
  induction records with
  | nil => exact ⟨rfl, by simp [encodeAll]⟩
  | cons r records ih =>
    rw [encodeAll_cons]
    exact (clean_encodeRecord r (h r (List.mem_cons_self _ _))).append
      (ih (fun r' hr' => h r' (List.mem_cons_of_mem _ hr')))

/-- Reading back what `csv.Writer` wrote: records of one common number of
fields, none a single empty field, with no carriage return before a line
feed inside a field, decode to themselves. -/
theorem ReadAll_encodeAll (n : Nat) (records : List (List GoString))
    (hrs : ∀ r ∈ records, r.length = n ∧ r ≠ [] ∧ r ≠ [[]])
    (hcr : ∀ r ∈ records, ∀ f ∈ r, hasCRLF f = false) :
    ReadAll (encodeAll records) = .ok records := by
  have := readAllLoop_encodeAll n records ((encodeAll records).length + 1) 0 [] hrs
    (Or.inl rfl) (clean_encodeAll records hcr).1 (le_refl _)
  simpa [ReadAll] using this

end Gas

namespace Gas

/-! ## The records of the CSV path: the claim -/

theorem reportCSVLoop_writeEach {σ τ : Type} (env : Env σ τ) (w : Sink σ)
    (issues : List Issue) (out : CsvWriter σ) (handed : List (List GoString)) :
    ((reportCSVLoop env w issues out handed).1, (reportCSVLoop env w issues out handed).2.2)
      = writeEach w out (issues.map (csvRecord env)) := by
  induction issues generalizing out handed with
  | nil => rfl
  | cons issue rest ih =>
    simp only [reportCSVLoop, List.map_cons, writeEach]
    rcases hw : CsvWriter.Write w out (csvRecord env issue) with ⟨out1, _ | e⟩
    · exact ih out1 _
    · rfl

/-- C5: `reportCSV` hands the CSV writer exactly one record per finding, in
finding order and with nothing before them, and the record of a finding is
its six fields File, decimal Line, What, Severity string, Confidence string
and Code. The writer `reportCSV` leaves behind and the error it returns are
those of writing these records one after the other to a new writer, up to
the first write that fails, followed by a flush; the records handed over are
a prefix of the six-field records, and all of them, as many as there are
findings, when `reportCSV` returns nil; and into memory the bytes that
arrive are those of exactly these records. -/
theorem reportCSV_records {σ τ : Type} (env : Env σ τ) (w : Sink σ) (s : σ) (data : Analyzer) :
    (reportCSV env w s data).1
      = CsvWriter.Flush w (writeEach w (NewWriter s) (data.Issues.map (fun issue =>
          [issue.File, Itoa issue.Line, issue.What, env.scoreString issue.Severity,
            env.scoreString issue.Confidence, issue.Code]))).1 ∧
    (reportCSV env w s data).2.2
      = (writeEach w (NewWriter s) (data.Issues.map (fun issue =>
          [issue.File, Itoa issue.Line, issue.What, env.scoreString issue.Severity,
            env.scoreString issue.Confidence, issue.Code]))).2 ∧
    (reportCSV env w s data).2.1 <+: data.Issues.map (fun issue =>
        [issue.File, Itoa issue.Line, issue.What, env.scoreString issue.Severity,
          env.scoreString issue.Confidence, issue.Code]) ∧
    ((reportCSV env w s data).2.2 = none →
      (reportCSV env w s data).2.1 = data.Issues.map (fun issue =>
        [issue.File, Itoa issue.Line, issue.What, env.scoreString issue.Severity,
          env.scoreString issue.Confidence, issue.Code]) ∧
      (reportCSV env w s data).2.1.length = data.Issues.length) ∧
    (∀ (mem : Env (List UInt8) τ),
      (reportCSV mem memSink [] data).2.2 = none ∧
      (reportCSV mem memSink [] data).1.w.wr = encodeAll (data.Issues.map (fun issue =>
        [issue.File, Itoa issue.Line, issue.What, mem.scoreString issue.Severity,
          mem.scoreString issue.Confidence, issue.Code]))) := by
  have hloop := reportCSVLoop_writeEach env w data.Issues (NewWriter s) []
  obtain ⟨k, hk, hrec, hnil⟩ := reportCSVLoop_handed env w data.Issues (NewWriter s) []
  have hrec' : (reportCSV env w s data).2.1 = (data.Issues.take k).map (csvRecord env) := by
    simpa [reportCSV] using hrec
  have herr : (reportCSV env w s data).2.2
      = (reportCSVLoop env w data.Issues (NewWriter s) []).2.2 := by
    simp [reportCSV]
  have hout : (reportCSV env w s data).1
      = CsvWriter.Flush w (reportCSVLoop env w data.Issues (NewWriter s) []).1 := by
    simp [reportCSV]
  refine ⟨?_, ?_, ?_, ?_, ?_⟩
  · rw [hout]
    exact congrArg (fun r => CsvWriter.Flush w r.1) hloop
  · rw [herr]
    exact congrArg (fun r => r.2) hloop
  · rw [hrec']
    exact (List.take_prefix k data.Issues).map (csvRecord env)
  · intro h
    rw [herr] at h
    have hk' := hnil h
    rw [hrec', hk', List.take_length]
    exact ⟨rfl, by simp⟩
  · intro mem
    obtain ⟨h1, -, h3⟩ := reportCSV_mem mem data
    exact ⟨h1, h3⟩

/-- C5 at one finding written to memory: one record of six fields is handed
over, and one line with these six fields is what the sink holds. -/
theorem reportCSV_records_witness :
    (reportCSV sampleEnv memSink [] ⟨[sampleIssue]⟩).2.1
      = [[goStr "main.go", goStr "7", goStr "Use of unsafe calls", goStr "HIGH",
          goStr "MEDIUM", goStr "unsafe.Pointer(p)"]] ∧
    (reportCSV sampleEnv memSink [] ⟨[sampleIssue]⟩).1.w.wr
      = goStr "main.go,7,Use of unsafe calls,HIGH,MEDIUM,unsafe.Pointer(p)\n" :=
  ⟨((reportCSV_records sampleEnv memSink [] ⟨[sampleIssue]⟩).2.2.2.1 (by decide)).1,
   ((reportCSV_records sampleEnv memSink [] ⟨[sampleIssue]⟩).2.2.2.2 sampleEnv).2⟩

end Gas

namespace Gas

/-! ## The CSV round trip: the claim -/

theorem toDigitsCore_no_CR (fuel n : Nat) (ds : List Char)
    (h : ∀ c ∈ ds, UInt8.ofNat c.toNat ≠ 13) :
    ∀ c ∈ Nat.toDigitsCore 10 fuel n ds, UInt8.ofNat c.toNat ≠ 13 := by
  induction fuel generalizing n ds with
  | zero => simpa [Nat.toDigitsCore] using h
  | succ fuel ih =>
    have hd : UInt8.ofNat (Nat.digitChar (n % 10)).toNat ≠ 13 := by
      have hall : ∀ m, m < 10 → UInt8.ofNat (Nat.digitChar m).toNat ≠ 13 := by decide
      exact hall _ (Nat.mod_lt _ (by decide))
    have h' : ∀ c ∈ Nat.digitChar (n % 10) :: ds, UInt8.ofNat c.toNat ≠ 13 := by
      intro c hc
      rcases List.mem_cons.1 hc with rfl | hc
      · exact hd
      · exact h c hc
    simp only [Nat.toDigitsCore]
    split
    · exact h'
    · exact ih _ _ h'

theorem hasCRLF_Itoa (n : Int) : hasCRLF (Itoa n) = false := by
  apply hasCRLF_of_no_CR
  cases n with
  | ofNat m =>
    simp only [Itoa, List.mem_map, not_exists, not_and]
    intro c hc
    exact fun e => toDigitsCore_no_CR _ _ [] (by simp) c hc e
  | negSucc m =>
    simp only [Itoa, List.mem_cons, List.mem_map, not_or, not_exists, not_and]
    refine ⟨by decide, ?_⟩
    intro c hc
    exact fun e => toDigitsCore_no_CR _ _ [] (by simp) c hc e

/-- C6, as stated, fails: a code snippet with a carriage return before a
line feed is written as it is, inside quotes, and the reader gives it back
without the carriage return although `reportCSV` returned nil. -/
theorem csv_round_trip_loses_CR :
    (reportCSV sampleEnv memSink [] ⟨[crlfIssue]⟩).2.2 = none ∧
    ReadAll (reportCSV sampleEnv memSink [] ⟨[crlfIssue]⟩).1.w.wr
      = .ok [[goStr "main.go", goStr "7", goStr "Use of unsafe calls", goStr "HIGH",
              goStr "MEDIUM", goStr "a\nb"]] ∧
    ReadAll (reportCSV sampleEnv memSink [] ⟨[crlfIssue]⟩).1.w.wr
      ≠ .ok [[crlfIssue.File, Itoa crlfIssue.Line, crlfIssue.What,
              sampleEnv.scoreString crlfIssue.Severity,
              sampleEnv.scoreString crlfIssue.Confidence, crlfIssue.Code]] := by
  decide

/-- C6, amended: when no text of a finding holds a carriage return directly
before a line feed, `reportCSV` into memory returns nil, and `ReadAll` on the
bytes written yields the six-field records of the findings, field for field
and in order. -/
theorem csv_round_trip {τ : Type} (env : Env (List UInt8) τ) (data : Analyzer)
    (h : ∀ issue ∈ data.Issues,
      hasCRLF issue.File = false ∧ hasCRLF issue.What = false ∧ hasCRLF issue.Code = false ∧
      hasCRLF (env.scoreString issue.Severity) = false ∧
      hasCRLF (env.scoreString issue.Confidence) = false) :
    (reportCSV env memSink [] data).2.2 = none ∧
    ReadAll (reportCSV env memSink [] data).1.w.wr
      = .ok (data.Issues.map (fun issue =>
          [issue.File, Itoa issue.Line, issue.What, env.scoreString issue.Severity,
            env.scoreString issue.Confidence, issue.Code])) := by
  obtain ⟨h1, -, h3⟩ := reportCSV_mem env data
  refine ⟨h1, ?_⟩
  rw [h3]
  refine ReadAll_encodeAll 6 _ ?_ ?_
  · intro r hr
    obtain ⟨issue, -, rfl⟩ := List.mem_map.1 hr
    simp [csvRecord]
  · intro r hr f hf
    obtain ⟨issue, hi, rfl⟩ := List.mem_map.1 hr
    obtain ⟨a, b, c, d, e⟩ := h issue hi
    simp only [csvRecord, List.mem_cons, List.mem_singleton, List.not_mem_nil, or_false] at hf
    rcases hf with rfl | rfl | rfl | rfl | rfl | rfl
    · exact a
    · exact hasCRLF_Itoa _
    · exact b
    · exact d
    · exact e
    · exact c

/-- C6, amended, for two findings, one with commas, quotes, line feeds, a
lone carriage return and leading spaces in its texts. -/
theorem csv_round_trip_witness :
    (reportCSV sampleEnv memSink [] ⟨[quotedIssue, sampleIssue]⟩).2.2 = none ∧
    ReadAll (reportCSV sampleEnv memSink [] ⟨[quotedIssue, sampleIssue]⟩).1.w.wr
      = .ok [[goStr "dir, with comma/a.go", goStr "-3", goStr " say \"hi\", then\nleave",
              goStr "LOW", goStr "HIGH", goStr "\n x\ry \"\"\n\n"],
             [goStr "main.go", goStr "7", goStr "Use of unsafe calls", goStr "HIGH",
              goStr "MEDIUM", goStr "unsafe.Pointer(p)"]] :=
  csv_round_trip sampleEnv ⟨[quotedIssue, sampleIssue]⟩ (by decide)

end Gas
